import Mathlib

/-!
Verification of the KaidokuPDF adaptive-OCR core against its specification.

The development shallowly embeds the Python modules `image_pdf_ocr/_engine.py`,
`image_pdf_ocr/_parallel.py` and `image_pdf_ocr/_pdf.py`:

* pure functions become Lean functions on lists and rationals
  (Python floats are modelled by `ℚ`; a pandas `NaN` entry is `Option.none`);
* a pandas `DataFrame` of recognized word boxes becomes a `Frame`: a list of
  column names plus a list of rows, so that `"conf" in frame.columns` style
  checks are modelled faithfully;
* exceptions become `Except` values over an error type `PyErr` that records
  the Python class hierarchy relevant to `except` clauses
  (`OCRCancelledError` subclasses `RuntimeError` in `_exceptions.py`);
* the process pool is modelled by an explicit completion order: a list of
  indices in which the pool yields results, quantified over all permutations.

External collaborators (tesseract itself, PIL image contents, PyMuPDF) are
abstracted: the recognition capability is a parameter supplying one word
table per candidate configuration, and images are reduced to the metadata
(sizes, mode) the embedded code actually inspects.
-/

set_option autoImplicit false

namespace KaidokuPDF

/-! ### Python string helpers

`str.split()` (no argument) splits on runs of ASCII whitespace and returns no
empty tokens; `str.strip()` removes leading and trailing whitespace.  Both are
modelled on `List Char`.  (Python also treats some further Unicode code points
as whitespace; the model restricts to the ASCII ones, which is all the
repository's inputs use.) -/

def pyIsSpace (c : Char) : Bool :=
  c == ' ' || c == '\t' || c == '\n' || c == '\r' ||
    c == Char.ofNat 11 || c == Char.ofNat 12

/-- Python `str.split()` with no separator, on the character list of the
string: tokens are the maximal runs of non-whitespace characters. -/
def splitWsGo : List Char → List Char → List (List Char)
  | [], acc => if acc.isEmpty then [] else [acc.reverse]
  | c :: cs, acc =>
      if pyIsSpace c then
        if acc.isEmpty then splitWsGo cs [] else acc.reverse :: splitWsGo cs []
      else splitWsGo cs (c :: acc)

def splitWs (l : List Char) : List (List Char) :=
  splitWsGo l []

/-- Python `str.strip()` on a character list. -/
def pyStripList (l : List Char) : List Char :=
  ((l.dropWhile pyIsSpace).reverse.dropWhile pyIsSpace).reverse

/-- Python `str.strip()` on a string. -/
def pyStrip (s : String) : String :=
  String.mk (pyStripList s.data)

/-! ### ConfigSanitizer (`_engine.py`, lines 26-55) -/

/-- Character class of `_SHELL_META_CHARS = re.compile(r"[;&|`$(){}<>!\\\"'\n\r]")`.
The backtick, quotes, backslash and braces are written via `Char.ofNat`. -/
def shellMetaChars : List Char :=
  [';', '&', '|', Char.ofNat 96, '$', '(', ')', Char.ofNat 123, Char.ofNat 125,
   '<', '>', '!', Char.ofNat 92, Char.ofNat 34, Char.ofNat 39, '\n', '\r']

def isShellMeta (c : Char) : Bool :=
  shellMetaChars.contains c

/-- Does `_SHELL_META_CHARS.search(token)` find a match? -/
def hasShellMeta (t : List Char) : Bool :=
  t.any isShellMeta

/-- The whitelist `_ALLOWED_TESSERACT_FLAGS`. -/
def allowedTesseractFlags : List (List Char) :=
  ["--oem".data, "--psm".data, "--dpi".data, "-l".data, "--tessdata-dir".data]

/-- Python `token.startswith("-")`. -/
def startsWithDash : List Char → Bool
  | [] => false
  | c :: _ => c == '-'

/-- The body of the `while i < len(tokens)` loop of
`_sanitize_tesseract_config`: drop any token containing a shell
metacharacter; keep a whitelisted flag, and when the following token does not
start with `-` consume it too, keeping it only when it is metacharacter-free;
drop everything else. -/
def sanitizeLoop : List (List Char) → List (List Char)
  | [] => []
  | [t] =>
      if hasShellMeta t then []
      else if t ∈ allowedTesseractFlags then [t]
      else []
  | t :: v :: rest' =>
      if hasShellMeta t then sanitizeLoop (v :: rest')
      else if t ∈ allowedTesseractFlags then
        if startsWithDash v then t :: sanitizeLoop (v :: rest')
        else if hasShellMeta v then t :: sanitizeLoop rest'
        else t :: v :: sanitizeLoop rest'
      else sanitizeLoop (v :: rest')

/-- `_sanitize_tesseract_config(raw)`: split on whitespace, run the whitelist
loop, and space-join the survivors; the empty string maps to itself. -/
def sanitizeTesseractConfig (raw : String) : String :=
  if raw.data.isEmpty then ""
  else String.mk (List.intercalate [' '] (sanitizeLoop (splitWs raw.data)))

/-! ### Word tables (`pandas.DataFrame` model)

A `Row` carries the fields the embedded code reads.  Numeric cells are
`Option ℚ`, with `none` playing the role of `NaN` (so `pd.to_numeric(...,
errors="coerce")` is the identity on this representation, and a `NaN`
survives comparisons the way Python's `NaN` does: every `<`/`>=` test on it
is false).  The hierarchical indices are integers, matching the `-1`
defaults that `getattr(row, ..., -1)` produces for missing columns. -/

structure Row where
  text : String
  conf : Option ℚ
  left : Option ℚ
  top : Option ℚ
  width : Option ℚ
  height : Option ℚ
  block : Int
  par : Int
  line : Int
deriving DecidableEq, Repr

/-- A pandas `DataFrame` of word boxes: the column names present plus the
rows.  `pd.DataFrame()` (no columns, no rows) is `emptyFrame`. -/
structure Frame where
  cols : List String
  rows : List Row
deriving DecidableEq, Repr

def emptyFrame : Frame :=
  ⟨[], []⟩

/-- Cell access gated on column presence, as `getattr(row, name, default)`
behaves on `DataFrame.itertuples` rows. -/
def confOf (cols : List String) (r : Row) : Option ℚ :=
  if "conf" ∈ cols then r.conf else some (-1)

def blockOf (cols : List String) (r : Row) : Int :=
  if "block_num" ∈ cols then r.block else -1

def parOf (cols : List String) (r : Row) : Int :=
  if "par_num" ∈ cols then r.par else -1

def lineOf (cols : List String) (r : Row) : Int :=
  if "line_num" ∈ cols then r.line else -1

/-- Python `float(conf) < 0` where `conf` may be `NaN` (`none`): a `NaN`
compares false. -/
def confLtZero : Option ℚ → Bool
  | some c => c < 0
  | none => false

/-! ### `_compute_average_confidence` (`_engine.py`, lines 156-168) -/

/-- The confidences that survive `confidences.notna() & (confidences >= 0)`. -/
def validConfs (f : Frame) : List ℚ :=
  ((f.rows.map Row.conf).filterMap id).filter (fun c => 0 ≤ c)

/-- `_compute_average_confidence(frame)`: `0.0` without a `conf` column or
without usable entries, else the mean of the non-negative confidences. -/
def computeAverageConfidence (f : Frame) : ℚ :=
  if "conf" ∈ f.cols then
    let valid := validConfs f
    if valid.isEmpty then 0 else valid.sum / valid.length
  else 0

/-! ### `_prepare_frame` (`_engine.py`, lines 171-185) -/

/-- Divide the coordinate cells of one row by `scale`, gated on the presence
of each coordinate column, as the `for column in (...)` loop does.  A `NaN`
cell stays `NaN`. -/
def scaleRowCoords (cols : List String) (s : ℚ) (r : Row) : Row :=
  { r with
    left := if "left" ∈ cols then r.left.map (fun v => v / s) else r.left
    top := if "top" ∈ cols then r.top.map (fun v => v / s) else r.top
    width := if "width" ∈ cols then r.width.map (fun v => v / s) else r.width
    height := if "height" ∈ cols then r.height.map (fun v => v / s) else r.height }

/-- `_prepare_frame(frame, scale)`: `pd.to_numeric` is the identity on this
representation, and the coordinate columns are divided by `scale` exactly
when `scale != 1.0`. -/
def prepareFrame (f : Frame) (s : ℚ) : Frame :=
  if s = 1 then f else { f with rows := f.rows.map (scaleRowCoords f.cols s) }

/-! ### `_run_ocr_with_best_config` (`_engine.py`, lines 92-110)

The recognition capability (`_image_to_data`, a black-box call into
pytesseract) is abstracted: the engine is parameterized by the list of word
tables the capability would return for the candidate configurations, in
candidate order.  The third component of the result counts how many
candidates were actually tried, i.e. how often the capability was invoked. -/

def earlyStopConfidence : ℚ := 90

def runBestLoop : List Frame → Option Frame → ℚ → Nat → Option Frame × ℚ × Nat
  | [], best, bavg, n => (best, bavg, n)
  | f :: rest, best, bavg, n =>
      let avg := computeAverageConfidence f
      let best' := if bavg < avg then some f else best
      let bavg' := if bavg < avg then avg else bavg
      if earlyStopConfidence ≤ bavg' then (best', bavg', n + 1)
      else runBestLoop rest best' bavg' (n + 1)

/-- `_run_ocr_with_best_config(image)`, as a function of the tables produced
for the successive candidate configs: best frame, its average confidence,
and the number of recognition invocations performed. -/
def runOcrWithBestConfig (results : List Frame) : Frame × ℚ × Nat :=
  match runBestLoop results none (-1) 0 with
  | (none, _, n) => (emptyFrame, 0, n)
  | (some f, a, n) => (f, a, n)

/-! ### `_perform_adaptive_ocr` (`_engine.py`, lines 113-142) -/

def upscaleFactor : ℚ := 3 / 2

structure AdaptiveOCRResult where
  frame : Frame
  averageConfidence : ℚ
  usedPreprocessing : Bool
deriving DecidableEq, Repr

/-- `_perform_adaptive_ocr(image)`, parameterized by the acceptance threshold
(`_AVERAGE_CONFIDENCE_THRESHOLD`, default 65, env-overridable and clamped to
[0,100]) and by the tables the capability would return for the baseline image
and for the deterministically preprocessed image.  The second component of
the result records whether the preprocessed recognition pass was executed. -/
def performAdaptiveOcr (threshold : ℚ) (baseResults preResults : List Frame) :
    AdaptiveOCRResult × Bool :=
  let b := runOcrWithBestConfig baseResults
  let best : AdaptiveOCRResult := ⟨prepareFrame b.1 1, b.2.1, false⟩
  if threshold ≤ b.2.1 then (best, false)
  else
    let p := runOcrWithBestConfig preResults
    if b.2.1 < p.2.1 then (⟨prepareFrame p.1 upscaleFactor, p.2.1, true⟩, true)
    else (best, true)

/-! ### `_reconstruct_text_from_frame` (`_parallel.py`, lines 59-106) -/

structure ReconState where
  lines : List String
  cur : List String
  prevBlock : Int
  prevPar : Int
  prevLine : Int
deriving Repr

/-- One iteration of the `for row in frame.itertuples(index=False)` loop. -/
def reconStep (cols : List String) (st : ReconState) (r : Row) : ReconState :=
  let textVal := pyStrip r.text
  if confLtZero (confOf cols r) || textVal == "" then st
  else
    let block := blockOf cols r
    let par := parOf cols r
    let line := lineOf cols r
    let st' :=
      if st.prevBlock ≠ -1 ∧ (block ≠ st.prevBlock ∨ par ≠ st.prevPar) then
        { st with
          lines := st.lines ++
            (if st.cur.isEmpty then [] else [String.intercalate " " st.cur]) ++ [""]
          cur := [] }
      else if st.prevLine ≠ -1 ∧ line ≠ st.prevLine then
        if st.cur.isEmpty then st
        else { st with lines := st.lines ++ [String.intercalate " " st.cur], cur := [] }
      else st
    { st' with
      cur := st'.cur ++ [textVal], prevBlock := block, prevPar := par, prevLine := line }

/-- `_reconstruct_text_from_frame(frame)`. -/
def reconstructTextFromFrame (f : Frame) : String :=
  if f.rows.isEmpty || decide ("text" ∉ f.cols) then ""
  else
    let st := f.rows.foldl (reconStep f.cols) ⟨[], [], -1, -1, -1⟩
    let finalLines :=
      st.lines ++ (if st.cur.isEmpty then [] else [String.intercalate " " st.cur])
    String.intercalate "\n" finalLines

/-! ### Error model (`_exceptions.py` plus the builtin classes)

`OCRCancelledError`, `OCRConversionError` and `PDFPasswordRemovalError` all
subclass `RuntimeError`; the parallel dispatcher's fallback clause is
`except (OSError, RuntimeError)`. -/

inductive PyErr where
  | cancelled
  | osError
  | runtimeError
deriving DecidableEq, Repr

/-- Membership of the `RuntimeError` class, as Python's `except` uses it:
`OCRCancelledError` is a subclass of `RuntimeError`. -/
def isRuntimeError : PyErr → Bool
  | .cancelled => true
  | .runtimeError => true
  | .osError => false

def isOSError : PyErr → Bool
  | .osError => true
  | _ => false

/-- Which exceptions the `except (OSError, RuntimeError)` fallback clause in
`run_parallel_ocr` catches. -/
def caughtByPoolFallback (e : PyErr) : Bool :=
  isOSError e || isRuntimeError e

/-! ### Parallel dispatcher (`_parallel.py`, lines 137-257)

The worker pool is abstracted by a completion order: the list of input
indices in the order `as_completed` yields their futures.  A pre-set
cancellation event is a constant `Bool`.  A pool whose startup fails with
`OSError` is modelled by the `poolFails` flag. -/

/-- `_run_sequential(images, worker_fn, cancel_event, ...)`: check the cancel
event before each image, otherwise map the worker over the list. -/
def runSequentialE {α β : Type} (worker : α → β) :
    List α → Bool → Except PyErr (List β)
  | [], _ => .ok []
  | img :: rest, cancel =>
      if cancel then .error .cancelled
      else
        match runSequentialE worker rest cancel with
        | .ok l => .ok (worker img :: l)
        | .error e => .error e

/-- The `for future in as_completed(...)` collection loop of
`_run_with_pool`: at each completed future, first check the cancel event,
then record `(index, worker images[index])`. -/
def poolCollect {α β : Type} [Inhabited α] (worker : α → β) (images : List α) :
    List Nat → Bool → Except PyErr (List (Nat × β))
  | [], _ => .ok []
  | i :: rest, cancel =>
      if cancel then .error .cancelled
      else
        match poolCollect worker images rest cancel with
        | .ok pairs => .ok ((i, worker (images.getD i default)) :: pairs)
        | .error e => .error e

/-- `_run_with_pool(images, worker_fn, cancel_event, ...)`: submit all
images, collect results keyed by original index in completion order, then
return `[results[i] for i in range(total)]`. -/
def runWithPoolE {α β : Type} [Inhabited α] [Inhabited β] (worker : α → β)
    (images : List α) (order : List Nat) (cancel poolFails : Bool) :
    Except PyErr (List β) :=
  if poolFails then .error .osError
  else
    match poolCollect worker images order cancel with
    | .error e => .error e
    | .ok pairs =>
        .ok ((List.range images.length).map fun i => (pairs.lookup i).getD default)

/-- `run_parallel_ocr(images, cancel_event, ...)` (and its `_with_text`
sibling, which differs only in the worker): empty input returns immediately;
a single image or disabled parallelism runs sequentially; otherwise the pool
runs and any `OSError`/`RuntimeError` escaping it triggers the sequential
fallback.  The second component records whether that fallback clause fired. -/
def runParallelOcr {α β : Type} [Inhabited α] [Inhabited β] (worker : α → β)
    (parallelEnabled : Bool) (images : List α) (order : List Nat)
    (cancel poolFails : Bool) : Except PyErr (List β) × Bool :=
  if images.length = 0 then (.ok [], false)
  else if !(parallelEnabled && decide (1 < images.length)) then
    (runSequentialE worker images cancel, false)
  else
    match runWithPoolE worker images order cancel poolFails with
    | .error e =>
        if caughtByPoolFallback e then (runSequentialE worker images cancel, true)
        else (.error e, false)
    | .ok l => (.ok l, false)

/-! ### Specification-side renderer for the text reconstructor

Modelled from the spec's words (§4.3 TextReconstructor), to be compared with
`reconstructTextFromFrame`: skip boxes with confidence `< 0` or empty
trimmed text; split the kept boxes into maximal runs of equal
(block, paragraph); within each run split into maximal runs of equal line;
render each line as its space-joined words, separate the (block, paragraph)
groups by one blank line, and join everything with newlines. -/

/-- A box the reconstructor keeps: confidence not below 0 (a `NaN` compares
false, hence is kept) and non-empty trimmed text. -/
def keepRow (cols : List String) (r : Row) : Bool :=
  !(confLtZero (confOf cols r) || pyStrip r.text == "")

/-- Maximal runs of rows sharing a key, accumulator form. -/
def chunkRunsGo {α : Type} [DecidableEq α] (key : Row → α) (k : α)
    (cur : List Row) : List Row → List (List Row)
  | [] => [cur.reverse]
  | r :: rest =>
      if key r = k then chunkRunsGo key k (r :: cur) rest
      else cur.reverse :: chunkRunsGo key (key r) [r] rest

/-- Maximal runs of rows sharing a key. -/
def chunkRuns {α : Type} [DecidableEq α] (key : Row → α) :
    List Row → List (List Row)
  | [] => []
  | r :: rest => chunkRunsGo key (key r) [r] rest

/-- Render one (block, paragraph) group: its lines, each space-joined. -/
def specGroupLines (cols : List String) (g : List Row) : List String :=
  (chunkRuns (lineOf cols) g).map
    (fun ln => String.intercalate " " (ln.map (fun r => pyStrip r.text)))

/-- Modelled from the spec: the reconstructed text as grouped runs with
blank-line separators between (block, paragraph) groups. -/
def specReconstruct (f : Frame) : String :=
  if f.rows.isEmpty || decide ("text" ∉ f.cols) then ""
  else
    let kept := f.rows.filter (keepRow f.cols)
    let groups := chunkRuns (fun r => (blockOf f.cols r, parOf f.cols r)) kept
    String.intercalate "\n" (List.intercalate [""] (groups.map (specGroupLines f.cols)))

/-! ### `extract_text_from_image_pdf` (`_pdf.py`, lines 440-524)

The rasterizer and the per-page OCR are abstracted: the model takes the list
of reconstructed per-page texts (one per page, in page order — the chunked
dispatch preserves page order, see the dispatcher theorems).  The Python
code appends `f"--- ページ {page_index} ---\n{page_text.strip()}\n"` per
page with a running 1-based counter, joins with `"\n"`, strips, and appends
a final newline; a zero-page document returns `"\n"` directly. -/

def buildPageTexts : List String → Nat → List String
  | [], _ => []
  | t :: rest, idx =>
      ("--- ページ " ++ toString (idx + 1) ++ " ---\n" ++ pyStrip t ++ "\n") ::
        buildPageTexts rest (idx + 1)

def extractTextFromImagePdfModel (pages : List String) : String :=
  if pages.length = 0 then "\n"
  else pyStrip (String.intercalate "\n" (buildPageTexts pages 0)) ++ "\n"

/-- `extract_text_from_image_pdf` with a cancellation event.  With at least
one page, `_extract_page_images` checks the event before rasterizing each
page, so a pre-set event raises before any OCR; with zero pages the function
returns `"\n"` from inside the `with` block without ever consulting the
event. -/
def extractTextFromImagePdfE (pages : List String) (cancel : Bool) :
    Except PyErr String :=
  if pages.length = 0 then .ok "\n"
  else if cancel then .error .cancelled
  else .ok (extractTextFromImagePdfModel pages)

/-- `extract_text_to_file` (`_pdf.py`, lines 527-553).  The filesystem is
reduced to the content of the output path (`none` = the file does not
exist).  `_prepare_output_path` only creates parent directories and writes
no bytes to the output path itself; the function re-checks the cancel event
immediately before `write_text`. -/
def extractTextToFileModel (pages : List String) (cancel : Bool)
    (outFile : Option String) : Except PyErr Unit × Option String :=
  match extractTextFromImagePdfE pages cancel with
  | .error e => (.error e, outFile)
  | .ok text =>
      if cancel then (.error .cancelled, outFile)
      else (.ok ⟨⟩, some text)

/-! ### `_normalize_image_for_canvas` (`_pdf.py`, lines 267-299)

A PIL image is reduced to the metadata the function inspects: its size after
EXIF-orientation normalization, and its mode.  Python's `round` is
round-half-to-even; `//` is floor division. -/

/-- Python `round` on a rational: round half to even. -/
def pyRound (q : ℚ) : Int :=
  let f := ⌊q⌋
  let r := q - f
  if r < 1 / 2 then f
  else if 1 / 2 < r then f + 1
  else if Even f then f else f + 1

structure ImgMeta where
  width : Int
  height : Int
  mode : String
deriving DecidableEq, Repr

/-- The outcome of `_normalize_image_for_canvas`: the canvas metadata, the
size of the resized source pasted onto it, the paste offset, and whether the
degenerate blank-canvas branch was taken. -/
structure CanvasPlacement where
  canvas : ImgMeta
  pastedWidth : Int
  pastedHeight : Int
  offsetX : Int
  offsetY : Int
  isBlank : Bool
deriving DecidableEq, Repr

/-- `_normalize_image_for_canvas(image, target_width, target_height)` on the
post-EXIF-transpose source size (`convert("RGB")` fixes the mode). -/
def normalizeImageForCanvas (src : ImgMeta) (targetWidth targetHeight : Int) :
    CanvasPlacement :=
  let width := src.width
  let height := src.height
  if width ≤ 0 ∨ height ≤ 0 then
    ⟨⟨targetWidth, targetHeight, "RGB"⟩, 0, 0, 0, 0, true⟩
  else
    let scale0 : ℚ := min ((targetWidth : ℚ) / width) ((targetHeight : ℚ) / height)
    let scale := if scale0 ≤ 0 then 1 else scale0
    let newW := max 1 (pyRound (width * scale))
    let newH := max 1 (pyRound (height * scale))
    ⟨⟨targetWidth, targetHeight, "RGB"⟩, newW, newH,
      max (Int.fdiv (targetWidth - newW) 2) 0,
      max (Int.fdiv (targetHeight - newH) 2) 0, false⟩

/-- Intermediate renderer used to relate the imperative fold of
`_reconstruct_text_from_frame` to the chunked `specReconstruct`: given the
current (block, paragraph) key, current line key and the words accumulated
on the current line, produce the remaining output lines for a list of kept
rows. -/
def renderRows (cols : List String) (b p l : Int) (cur : List String) :
    List Row → List String
  | [] => [String.intercalate " " cur]
  | r :: rest =>
      if blockOf cols r = b ∧ parOf cols r = p then
        if lineOf cols r = l then
          renderRows cols b p l (cur ++ [pyStrip r.text]) rest
        else
          String.intercalate " " cur ::
            renderRows cols b p (lineOf cols r) [pyStrip r.text] rest
      else
        String.intercalate " " cur :: "" ::
          renderRows cols (blockOf cols r) (parOf cols r) (lineOf cols r)
            [pyStrip r.text] rest

/-- The line list produced by the spec-side renderer for a kept-row list:
(block, paragraph) groups, rendered group by group, separated by one blank
line. -/
def specLinesOf (cols : List String) (rows : List Row) : List String :=
  List.intercalate [""]
    ((chunkRuns (fun r => (blockOf cols r, parOf cols r)) rows).map (specGroupLines cols))

/-- Shape of sanitizer output: a sequence of whitelisted flags, each
optionally followed by one metacharacter-free value token that does not
start with a dash. -/
inductive SanOut : List (List Char) → Prop
  | nil : SanOut []
  | flagOnly (f : List Char) (rest : List (List Char)) :
      f ∈ allowedTesseractFlags → SanOut rest → SanOut (f :: rest)
  | flagVal (f v : List Char) (rest : List (List Char)) :
      f ∈ allowedTesseractFlags → startsWithDash v = false → hasShellMeta v = false →
      SanOut rest → SanOut (f :: v :: rest)

/-- A one-word table whose single confidence is `q`; used to instantiate
theorems on concrete recognition outcomes. -/
def confFrame (q : ℚ) : Frame :=
  ⟨["conf"], [⟨"w", some q, none, none, none, none, 1, 1, 1⟩]⟩

/-! ## Theorems -/

/-- Average confidence is never negative: it is `0` or a mean of
non-negative entries. -/
theorem computeAverageConfidence_nonneg (f : Frame) :
    0 ≤ computeAverageConfidence f := by
  unfold computeAverageConfidence
  split
  · dsimp only
    split
    · exact le_refl 0
    · apply div_nonneg
      · apply List.sum_nonneg
        intro x hx
        exact of_decide_eq_true (List.mem_filter.mp hx).2
      · exact_mod_cast Nat.zero_le _
  · exact le_refl 0

/-- C3: for every word table, the computed average confidence equals the
arithmetic mean of the confidence entries that are non-`NaN` and `≥ 0`
(`validConfs`), and equals `0.0` when the table has no `conf` column or no
such entry (in particular when the table is empty); the function is total,
so it never raises. -/
theorem computeAverageConfidence_spec (f : Frame) :
    ("conf" ∉ f.cols → computeAverageConfidence f = 0) ∧
    (validConfs f = [] → computeAverageConfidence f = 0) ∧
    ("conf" ∈ f.cols → validConfs f ≠ [] →
      computeAverageConfidence f = (validConfs f).sum / ((validConfs f).length : ℚ)) := by
  refine ⟨fun h => ?_, fun h => ?_, fun h₁ h₂ => ?_⟩
  · simp [computeAverageConfidence, h]
  · by_cases hc : "conf" ∈ f.cols
    · simp [computeAverageConfidence, hc, h]
    · simp [computeAverageConfidence, hc]
  · simp [computeAverageConfidence, h₁, List.isEmpty_iff, h₂]

/-- Witness for C3: a concrete mixed table (confidences 90, 85, −1, `NaN`)
has average `(90 + 85) / 2`. -/
theorem computeAverageConfidence_spec_witness :
    computeAverageConfidence
      ⟨["conf", "text"],
        [⟨"Hello", some 90, none, none, none, none, 1, 1, 1⟩,
         ⟨"World", some 85, none, none, none, none, 1, 1, 1⟩,
         ⟨"", some (-1), none, none, none, none, 1, 1, 1⟩,
         ⟨"x", none, none, none, none, none, 1, 1, 1⟩]⟩ = 175 / 2 := by
  have h := (computeAverageConfidence_spec
    ⟨["conf", "text"],
      [⟨"Hello", some 90, none, none, none, none, 1, 1, 1⟩,
       ⟨"World", some 85, none, none, none, none, 1, 1, 1⟩,
       ⟨"", some (-1), none, none, none, none, 1, 1, 1⟩,
       ⟨"x", none, none, none, none, none, 1, 1, 1⟩]⟩).2.2
    (by decide) (by decide)
  have hv : validConfs
      ⟨["conf", "text"],
        [⟨"Hello", some 90, none, none, none, none, 1, 1, 1⟩,
         ⟨"World", some 85, none, none, none, none, 1, 1, 1⟩,
         ⟨"", some (-1), none, none, none, none, 1, 1, 1⟩,
         ⟨"x", none, none, none, none, none, 1, 1, 1⟩]⟩ = [90, 85] := by
    decide
  rw [h, hv]
  norm_num

theorem computeAverageConfidence_confFrame (q : ℚ) (hq : 0 ≤ q) :
    computeAverageConfidence (confFrame q) = q := by
  simp [computeAverageConfidence, confFrame, validConfs, hq]

theorem runBestLoop_count (fs : List Frame) :
    ∀ (best : Option Frame) (bavg : ℚ) (n : Nat),
      bavg < earlyStopConfidence →
      (runBestLoop fs best bavg n).2.2
        = n + min fs.length
            (fs.findIdx
              (fun f => decide (earlyStopConfidence ≤ computeAverageConfidence f)) + 1) := by
  induction fs with
  | nil => intro best bavg n _; simp [runBestLoop]
  | cons f rest ih =>
      intro best bavg n h
      simp only [runBestLoop]
      by_cases hstop :
          earlyStopConfidence ≤
            (if bavg < computeAverageConfidence f then computeAverageConfidence f else bavg)
      · have hA : earlyStopConfidence ≤ computeAverageConfidence f := by
          by_cases hup : bavg < computeAverageConfidence f
          · simpa [hup] using hstop
          · exact absurd (by simpa [hup] using hstop) (not_le.mpr h)
        simp only [hstop, if_pos]
        have : List.findIdx
            (fun f => decide (earlyStopConfidence ≤ computeAverageConfidence f)) (f :: rest)
            = 0 := by
          simp [List.findIdx_cons, hA]
        rw [this]
        simp [Nat.min_def]
      · have hA : ¬ earlyStopConfidence ≤ computeAverageConfidence f := by
          intro hge
          apply hstop
          by_cases hup : bavg < computeAverageConfidence f
          · simpa [hup] using hge
          · exact absurd (le_trans hge (not_lt.mp hup)) (not_le.mpr h)
        simp only [hstop, if_neg, not_false_iff]
        rw [ih _ _ _ (not_le.mp hstop)]
        have : List.findIdx
            (fun f => decide (earlyStopConfidence ≤ computeAverageConfidence f)) (f :: rest)
            = List.findIdx
                (fun f => decide (earlyStopConfidence ≤ computeAverageConfidence f)) rest + 1 := by
          simp [List.findIdx_cons, hA]
        rw [this]
        simp [List.length_cons, Nat.succ_min_succ]
        omega

theorem runBestLoop_count_ge (fs : List Frame) :
    ∀ (best : Option Frame) (bavg : ℚ) (n : Nat),
      n ≤ (runBestLoop fs best bavg n).2.2 := by
  induction fs with
  | nil => intro best bavg n; simp [runBestLoop]
  | cons f rest ih =>
      intro best bavg n
      simp only [runBestLoop]
      by_cases hstop :
          earlyStopConfidence ≤
            (if bavg < computeAverageConfidence f then computeAverageConfidence f else bavg)
      · simp [hstop]
      · simp only [hstop, if_neg, not_false_iff]
        exact le_trans (Nat.le_succ n) (ih _ _ _)

theorem runBestLoop_le_avg (fs : List Frame) :
    ∀ (best : Option Frame) (bavg : ℚ) (n : Nat),
      bavg ≤ (runBestLoop fs best bavg n).2.1 := by
  induction fs with
  | nil => intro best bavg n; simp [runBestLoop]
  | cons f rest ih =>
      intro best bavg n
      simp only [runBestLoop]
      have hle : bavg ≤
          (if bavg < computeAverageConfidence f then computeAverageConfidence f else bavg) := by
        by_cases hup : bavg < computeAverageConfidence f
        · simp [hup]; exact hup.le
        · simp [hup]
      by_cases hstop :
          earlyStopConfidence ≤
            (if bavg < computeAverageConfidence f then computeAverageConfidence f else bavg)
      · simpa [hstop] using hle
      · simp only [hstop, if_neg, not_false_iff]
        exact le_trans hle (ih _ _ _)

theorem runBestLoop_ub (fs : List Frame) :
    ∀ (best : Option Frame) (bavg : ℚ) (n : Nat),
      ∀ f ∈ fs.take ((runBestLoop fs best bavg n).2.2 - n),
        computeAverageConfidence f ≤ (runBestLoop fs best bavg n).2.1 := by
  induction fs with
  | nil => intro best bavg n f hf; simp [runBestLoop] at hf
  | cons g rest ih =>
      intro best bavg n f hf
      simp only [runBestLoop] at hf ⊢
      have hgle : computeAverageConfidence g ≤
          (if bavg < computeAverageConfidence g then computeAverageConfidence g else bavg) := by
        by_cases hup : bavg < computeAverageConfidence g
        · simp [hup]
        · simp [hup]; exact not_lt.mp hup
      by_cases hstop :
          earlyStopConfidence ≤
            (if bavg < computeAverageConfidence g then computeAverageConfidence g else bavg)
      · simp only [hstop, if_pos] at hf ⊢
        have : (n + 1) - n = 1 := by omega
        rw [this] at hf
        simp only [List.take_succ_cons, List.take_zero] at hf
        rcases List.mem_singleton.mp hf with rfl
        exact hgle
      · simp only [hstop, if_neg, not_false_iff] at hf ⊢
        have hge := runBestLoop_count_ge rest
          (if bavg < computeAverageConfidence g then some g else best)
          (if bavg < computeAverageConfidence g then computeAverageConfidence g else bavg)
          (n + 1)
        have hcnt : (runBestLoop rest
            (if bavg < computeAverageConfidence g then some g else best)
            (if bavg < computeAverageConfidence g then computeAverageConfidence g else bavg)
            (n + 1)).2.2 - n
            = ((runBestLoop rest
                (if bavg < computeAverageConfidence g then some g else best)
                (if bavg < computeAverageConfidence g then computeAverageConfidence g else bavg)
                (n + 1)).2.2 - (n + 1)) + 1 := by omega
        rw [hcnt, List.take_succ_cons] at hf
        rcases List.mem_cons.mp hf with rfl | hmem
        · exact le_trans hgle (runBestLoop_le_avg rest _ _ _)
        · exact ih _ _ _ f hmem

theorem runBestLoop_best_avg (fs : List Frame) :
    ∀ (best : Option Frame) (bavg : ℚ) (n : Nat),
      (∀ g, best = some g → computeAverageConfidence g = bavg) →
      ∀ g, (runBestLoop fs best bavg n).1 = some g →
        computeAverageConfidence g = (runBestLoop fs best bavg n).2.1 := by
  induction fs with
  | nil => intro best bavg n hbest g hg; simp [runBestLoop] at hg ⊢; exact hbest g hg
  | cons f rest ih =>
      intro best bavg n hbest g hg
      simp only [runBestLoop] at hg ⊢
      by_cases hstop :
          earlyStopConfidence ≤
            (if bavg < computeAverageConfidence f then computeAverageConfidence f else bavg)
      · simp only [hstop, if_pos] at hg ⊢
        by_cases hup : bavg < computeAverageConfidence f
        · simp only [hup, if_pos] at hg ⊢
          rcases Option.some.inj hg with rfl
          rfl
        · simp only [hup, if_neg, not_false_iff] at hg ⊢
          exact hbest g hg
      · simp only [hstop, if_neg, not_false_iff] at hg ⊢
        refine ih _ _ _ ?_ g hg
        intro g' hg'
        by_cases hup : bavg < computeAverageConfidence f
        · simp only [hup, if_pos] at hg' ⊢
          rcases Option.some.inj hg' with rfl
          rfl
        · simp only [hup, if_neg, not_false_iff] at hg' ⊢
          exact hbest g' hg'

theorem runBestLoop_mem (fs : List Frame) :
    ∀ (best : Option Frame) (bavg : ℚ) (n : Nat),
      (runBestLoop fs best bavg n).1 = best ∨
        ∃ g ∈ fs, (runBestLoop fs best bavg n).1 = some g := by
  induction fs with
  | nil => intro best bavg n; left; simp [runBestLoop]
  | cons f rest ih =>
      intro best bavg n
      simp only [runBestLoop]
      by_cases hstop :
          earlyStopConfidence ≤
            (if bavg < computeAverageConfidence f then computeAverageConfidence f else bavg)
      · simp only [hstop, if_pos]
        by_cases hup : bavg < computeAverageConfidence f
        · right; exact ⟨f, List.mem_cons_self f rest, by simp [hup]⟩
        · left; simp [hup]
      · simp only [hstop, if_neg, not_false_iff]
        rcases ih (if bavg < computeAverageConfidence f then some f else best)
            (if bavg < computeAverageConfidence f then computeAverageConfidence f else bavg)
            (n + 1) with heq | ⟨g, hg, he⟩
        · by_cases hup : bavg < computeAverageConfidence f
          · right; exact ⟨f, List.mem_cons_self f rest, by simpa [hup] using heq⟩
          · left; simpa [hup] using heq
        · right; exact ⟨g, List.mem_cons_of_mem f hg, he⟩

theorem runBestLoop_stays_some (fs : List Frame) :
    ∀ (g : Frame) (bavg : ℚ) (n : Nat),
      ∃ g', (runBestLoop fs (some g) bavg n).1 = some g' := by
  induction fs with
  | nil => intro g bavg n; exact ⟨g, by simp [runBestLoop]⟩
  | cons f rest ih =>
      intro g bavg n
      simp only [runBestLoop]
      by_cases hstop :
          earlyStopConfidence ≤
            (if bavg < computeAverageConfidence f then computeAverageConfidence f else bavg)
      · simp only [hstop, if_pos]
        by_cases hup : bavg < computeAverageConfidence f
        · exact ⟨f, by simp [hup]⟩
        · exact ⟨g, by simp [hup]⟩
      · simp only [hstop, if_neg, not_false_iff]
        by_cases hup : bavg < computeAverageConfidence f
        · simpa [hup] using ih f _ (n + 1)
        · simpa [hup] using ih g _ (n + 1)

theorem runBestLoop_isSome (fs : List Frame) (bavg : ℚ) (n : Nat)
    (h0 : bavg < 0) (hne : fs ≠ []) :
    ∃ g, (runBestLoop fs none bavg n).1 = some g := by
  cases fs with
  | nil => exact absurd rfl hne
  | cons f rest =>
      simp only [runBestLoop]
      have hup : bavg < computeAverageConfidence f :=
        lt_of_lt_of_le h0 (computeAverageConfidence_nonneg f)
      by_cases hstop :
          earlyStopConfidence ≤
            (if bavg < computeAverageConfidence f then computeAverageConfidence f else bavg)
      · simp only [hstop, if_pos]
        exact ⟨f, by simp [hup]⟩
      · simp only [hstop, if_neg, not_false_iff]
        simpa [hup] using runBestLoop_stays_some rest f _ (n + 1)

/-- C2: the engine tries the candidate configurations in order, keeping the
best (frame, confidence) pair, and stops as soon as the running best reaches
the early-stop threshold 90.0.  The invocation count equals the (1-based)
position of the first candidate whose table scores at least 90, capped at
the number of candidates; every tried candidate scores at most the returned
average; the returned frame is a tried table achieving the returned
average; an empty candidate list yields an empty table with confidence 0 and
zero invocations; and a first candidate at or above 90 means exactly one
invocation. -/
theorem runOcrWithBestConfig_spec (fs : List Frame) :
    (runOcrWithBestConfig fs).2.2
      = min fs.length
          (fs.findIdx
            (fun f => decide (earlyStopConfidence ≤ computeAverageConfidence f)) + 1) ∧
    (∀ f ∈ fs.take (runOcrWithBestConfig fs).2.2,
        computeAverageConfidence f ≤ (runOcrWithBestConfig fs).2.1) ∧
    (fs ≠ [] →
        computeAverageConfidence (runOcrWithBestConfig fs).1
            = (runOcrWithBestConfig fs).2.1 ∧
        (runOcrWithBestConfig fs).1 ∈ fs) ∧
    (fs = [] → runOcrWithBestConfig fs = (emptyFrame, 0, 0)) ∧
    (∀ f tail, fs = f :: tail → earlyStopConfidence ≤ computeAverageConfidence f →
        (runOcrWithBestConfig fs).2.2 = 1) := by
  have hsplit :
      (fs = [] ∧ runOcrWithBestConfig fs = (emptyFrame, 0, 0)) ∨
        ∃ g a n, runBestLoop fs none (-1) 0 = (some g, a, n) ∧
          runOcrWithBestConfig fs = (g, a, n) := by
    cases fs with
    | nil => exact Or.inl ⟨rfl, by simp [runOcrWithBestConfig, runBestLoop]⟩
    | cons f rest =>
        right
        obtain ⟨g, hg⟩ := runBestLoop_isSome (f :: rest) (-1) 0 (by norm_num) (by simp)
        rcases hR : runBestLoop (f :: rest) none (-1) 0 with ⟨b, a, n⟩
        rw [hR] at hg
        simp only at hg
        subst hg
        exact ⟨g, a, n, rfl, by simp [runOcrWithBestConfig, hR]⟩
  rcases hsplit with ⟨hnil, hres⟩ | ⟨g, a, n, hR, hres⟩
  · subst hnil
    refine ⟨?_, ?_, ?_, ?_, ?_⟩
    · rw [hres]; simp
    · intro f hf; rw [hres] at hf; simp at hf
    · intro h; exact absurd rfl h
    · intro _; exact hres
    · intro f tail h; exact absurd h.symm (List.cons_ne_nil f tail)
  · have hcount := runBestLoop_count fs none (-1) 0 (by norm_num [earlyStopConfidence])
    rw [hR] at hcount
    simp only at hcount
    refine ⟨?_, ?_, ?_, ?_, ?_⟩
    · rw [hres]; simpa using hcount
    · intro f hf
      rw [hres] at hf ⊢
      simp only at hf ⊢
      have hub := runBestLoop_ub fs none (-1) 0 f
      rw [hR] at hub
      simp only [Nat.sub_zero] at hub
      exact hub hf
    · intro _
      have havg := runBestLoop_best_avg fs none (-1) 0 (by intro g' h'; cases h') g
      rw [hR] at havg
      simp only at havg
      have hmem := runBestLoop_mem fs none (-1) 0
      rw [hR] at hmem
      constructor
      · rw [hres]; simpa using havg (by trivial)
      · rw [hres]
        rcases hmem with h | ⟨g', hg', he⟩
        · simp only at h; cases h
        · simp only at he
          rcases Option.some.inj he with rfl
          exact hg'
    · intro h
      subst h
      simp [runBestLoop] at hR
    · intro f tail h h90
      subst h
      rw [hres]
      simp only
      rw [hcount]
      have hidx : List.findIdx
          (fun f => decide (earlyStopConfidence ≤ computeAverageConfidence f)) (f :: tail)
          = 0 := by
        simp [List.findIdx_cons, h90]
      rw [hidx]
      simp [Nat.min_def]

/-- Witness for C2: with a first candidate scoring 95 ≥ 90, the capability
is invoked exactly once even though a second candidate exists. -/
theorem runOcrWithBestConfig_spec_witness :
    (runOcrWithBestConfig [confFrame 95, confFrame 10]).2.2 = 1 := by
  refine (runOcrWithBestConfig_spec [confFrame 95, confFrame 10]).2.2.2.2
    (confFrame 95) [confFrame 10] rfl ?_
  rw [computeAverageConfidence_confFrame 95 (by norm_num)]
  norm_num [earlyStopConfidence]

/-- On a single-candidate list the engine returns that candidate's table and
average (whether or not it hits the early stop) after one invocation. -/
theorem runOcrWithBestConfig_confFrame (q : ℚ) (hq : 0 ≤ q) :
    runOcrWithBestConfig [confFrame q] = (confFrame q, q, 1) := by
  have hlt : (-1 : ℚ) < q := lt_of_lt_of_le (by norm_num) hq
  by_cases h90 : earlyStopConfidence ≤ q
  · simp [runOcrWithBestConfig, runBestLoop,
      computeAverageConfidence_confFrame q hq, hlt, h90]
  · simp [runOcrWithBestConfig, runBestLoop,
      computeAverageConfidence_confFrame q hq, hlt, h90]

/-- C1: with baseline average at or above the acceptance threshold the
engine returns the baseline result (`used_preprocessing = false`) and the
preprocessed pass does not run; below the threshold the preprocessed pass
runs exactly once, and its result (coordinates divided by the 1.5 upscale
factor, `used_preprocessing = true`) is returned exactly when its average
strictly exceeds the baseline's, the baseline result being returned
unchanged otherwise.  The last four conjuncts state the coordinate
rescaling performed by `prepareFrame`: scale 1 is the identity, and scale
`upscaleFactor` divides every present coordinate column entrywise. -/
theorem performAdaptiveOcr_spec (threshold : ℚ) (bres pres : List Frame) :
    (threshold ≤ (runOcrWithBestConfig bres).2.1 →
        performAdaptiveOcr threshold bres pres
          = (⟨prepareFrame (runOcrWithBestConfig bres).1 1,
              (runOcrWithBestConfig bres).2.1, false⟩, false)) ∧
    ((runOcrWithBestConfig bres).2.1 < threshold →
        (performAdaptiveOcr threshold bres pres).2 = true ∧
        ((runOcrWithBestConfig bres).2.1 < (runOcrWithBestConfig pres).2.1 →
            (performAdaptiveOcr threshold bres pres).1
              = ⟨prepareFrame (runOcrWithBestConfig pres).1 upscaleFactor,
                  (runOcrWithBestConfig pres).2.1, true⟩) ∧
        ((runOcrWithBestConfig pres).2.1 ≤ (runOcrWithBestConfig bres).2.1 →
            (performAdaptiveOcr threshold bres pres).1
              = ⟨prepareFrame (runOcrWithBestConfig bres).1 1,
                  (runOcrWithBestConfig bres).2.1, false⟩)) ∧
    (∀ g : Frame, prepareFrame g 1 = g) ∧
    (∀ g : Frame, "left" ∈ g.cols →
        (prepareFrame g upscaleFactor).rows.map Row.left
          = g.rows.map (fun r => r.left.map (fun v => v / upscaleFactor))) ∧
    (∀ g : Frame, "top" ∈ g.cols →
        (prepareFrame g upscaleFactor).rows.map Row.top
          = g.rows.map (fun r => r.top.map (fun v => v / upscaleFactor))) ∧
    (∀ g : Frame, "width" ∈ g.cols →
        (prepareFrame g upscaleFactor).rows.map Row.width
          = g.rows.map (fun r => r.width.map (fun v => v / upscaleFactor))) ∧
    (∀ g : Frame, "height" ∈ g.cols →
        (prepareFrame g upscaleFactor).rows.map Row.height
          = g.rows.map (fun r => r.height.map (fun v => v / upscaleFactor))) := by
  have hups : (upscaleFactor : ℚ) ≠ 1 := by norm_num [upscaleFactor]
  refine ⟨?_, ?_, ?_, ?_, ?_, ?_, ?_⟩
  · intro h
    simp [performAdaptiveOcr, h]
  · intro h
    have hnot : ¬ threshold ≤ (runOcrWithBestConfig bres).2.1 := not_le.mpr h
    refine ⟨?_, ?_, ?_⟩
    · by_cases h2 : (runOcrWithBestConfig bres).2.1 < (runOcrWithBestConfig pres).2.1
      · simp [performAdaptiveOcr, hnot, h2]
      · simp [performAdaptiveOcr, hnot, h2]
    · intro h2
      simp [performAdaptiveOcr, hnot, h2]
    · intro h2
      have h2' : ¬ (runOcrWithBestConfig bres).2.1 < (runOcrWithBestConfig pres).2.1 :=
        not_lt.mpr h2
      simp [performAdaptiveOcr, hnot, h2']
  · intro g
    simp [prepareFrame]
  · intro g hmem
    simp [prepareFrame, hups, scaleRowCoords, hmem]
  · intro g hmem
    simp [prepareFrame, hups, scaleRowCoords, hmem]
  · intro g hmem
    simp [prepareFrame, hups, scaleRowCoords, hmem]
  · intro g hmem
    simp [prepareFrame, hups, scaleRowCoords, hmem]

/-- Witness for C1: at the default threshold 65, baseline 70 skips the
preprocessing pass; baseline 30 triggers it, and the preprocessed result is
used exactly when it scores higher (50 > 30) and discarded when lower
(20 < 30). -/
theorem performAdaptiveOcr_spec_witness :
    (performAdaptiveOcr 65 [confFrame 70] []).2 = false ∧
    (performAdaptiveOcr 65 [confFrame 30] [confFrame 50]).2 = true ∧
    (performAdaptiveOcr 65 [confFrame 30] [confFrame 50]).1.usedPreprocessing = true ∧
    (performAdaptiveOcr 65 [confFrame 30] [confFrame 20]).1.usedPreprocessing = false := by
  have h70 := runOcrWithBestConfig_confFrame 70 (by norm_num)
  have h30 := runOcrWithBestConfig_confFrame 30 (by norm_num)
  have h50 := runOcrWithBestConfig_confFrame 50 (by norm_num)
  have h20 := runOcrWithBestConfig_confFrame 20 (by norm_num)
  refine ⟨?_, ?_, ?_, ?_⟩
  · have h := (performAdaptiveOcr_spec 65 [confFrame 70] []).1
      (by rw [h70]; norm_num)
    rw [h]
  · exact ((performAdaptiveOcr_spec 65 [confFrame 30] [confFrame 50]).2.1
      (by rw [h30]; norm_num)).1
  · have h := ((performAdaptiveOcr_spec 65 [confFrame 30] [confFrame 50]).2.1
      (by rw [h30]; norm_num)).2.1 (by rw [h30, h50]; norm_num)
    rw [h]
  · have h := ((performAdaptiveOcr_spec 65 [confFrame 30] [confFrame 20]).2.1
      (by rw [h30]; norm_num)).2.2 (by rw [h30, h20]; norm_num)
    rw [h]

theorem runSequentialE_ok {α β : Type} (worker : α → β) (images : List α) :
    runSequentialE worker images false = .ok (images.map worker) := by
  induction images with
  | nil => simp [runSequentialE]
  | cons a rest ih => simp [runSequentialE, ih]

theorem poolCollect_ok {α β : Type} [Inhabited α] (worker : α → β)
    (images : List α) (order : List Nat) :
    poolCollect worker images order false
      = .ok (order.map fun i => (i, worker (images.getD i default))) := by
  induction order with
  | nil => simp [poolCollect]
  | cons i rest ih => simp [poolCollect, ih]

theorem lookup_map_pair {β : Type} (g : Nat → β) (l : List Nat) (i : Nat) :
    (l.map fun j => (j, g j)).lookup i = if i ∈ l then some (g i) else none := by
  induction l with
  | nil => simp [List.lookup]
  | cons j rest ih =>
      by_cases hij : i = j
      · subst hij
        simp [List.lookup]
      · have hb : (i == j) = false := beq_eq_false_iff_ne.mpr hij
        simp [List.lookup, hb, ih, List.mem_cons, hij]

theorem map_getD_range {α β : Type} [Inhabited α] (f : α → β) (l : List α) :
    (List.range l.length).map (fun i => f (l.getD i default)) = l.map f := by
  apply List.ext_getElem
  · simp
  · intro i h1 h2
    simp only [List.getElem_map, List.getElem_range]
    congr 1
    rw [List.getD_eq_getElem?_getD]
    rw [List.getElem?_eq_getElem (by simpa using h2)]
    rfl

/-- C4: regardless of the order in which the pool completes work (any
permutation of the input indices) and regardless of a pool startup failure
(which falls back to the sequential path), the dispatcher returns exactly
the worker image of the input list, so output index `i` holds the result
for input image `i`; and the empty input yields the empty output without
consulting the pool, the cancel event, or the fallback. -/
theorem runParallelOcr_order_spec {α β : Type} [Inhabited α] [Inhabited β]
    (worker : α → β) :
    (∀ (images : List α) (parallel poolFails : Bool) (order : List Nat),
        order.Perm (List.range images.length) →
        (runParallelOcr worker parallel images order false poolFails).1
          = .ok (images.map worker)) ∧
    (∀ (parallel poolFails cancel : Bool) (order : List Nat),
        runParallelOcr worker parallel ([] : List α) order cancel poolFails
          = (.ok [], false)) := by
  constructor
  · intro images parallel poolFails order hperm
    rcases images with _ | ⟨img, rest⟩
    · simp [runParallelOcr]
    · by_cases hpar : (parallel && decide (1 < rest.length + 1)) = true
      · have hcondf : ¬ ((!(parallel && decide (1 < rest.length + 1))) = true) := by
          rw [hpar]; simp
        rcases hpf : poolFails with _ | _
        · have hpool : runWithPoolE worker (img :: rest) order false false
              = .ok ((img :: rest).map worker) := by
            simp only [runWithPoolE, Bool.false_eq_true, if_false]
            rw [poolCollect_ok]
            simp only
            refine congrArg Except.ok ?_
            have hlk : ∀ i ∈ List.range (img :: rest).length,
                ((order.map fun j => (j, worker ((img :: rest).getD j default))).lookup i).getD
                    default
                  = worker ((img :: rest).getD i default) := by
              intro i hi
              rw [lookup_map_pair]
              have : i ∈ order := (hperm.mem_iff).mpr hi
              simp [this]
            calc (List.range (img :: rest).length).map
                  (fun i =>
                    ((order.map fun j => (j, worker ((img :: rest).getD j default))).lookup
                        i).getD default)
                = (List.range (img :: rest).length).map
                    (fun i => worker ((img :: rest).getD i default)) :=
                  List.map_congr_left hlk
              _ = (img :: rest).map worker := map_getD_range worker (img :: rest)
          simp only [runParallelOcr, List.length_cons]
          rw [if_neg (Nat.succ_ne_zero _), if_neg hcondf, hpool]
        · simp only [runParallelOcr, List.length_cons]
          rw [if_neg (Nat.succ_ne_zero _), if_neg hcondf]
          have hpw : runWithPoolE worker (img :: rest) order false true
              = .error .osError := by
            simp [runWithPoolE]
          rw [hpw]
          simp [caughtByPoolFallback, isOSError, runSequentialE_ok]
      · have hcond : (!(parallel && decide (1 < rest.length + 1))) = true := by
          rw [Bool.eq_false_iff.mpr hpar]; rfl
        simp only [runParallelOcr, List.length_cons]
        rw [if_neg (Nat.succ_ne_zero _), if_pos hcond]
        simp [runSequentialE_ok]
  · intro parallel poolFails cancel order
    simp [runParallelOcr]

/-- Witness for C4: three images completed by the pool in the order 2,0,1
still come back in input order. -/
theorem runParallelOcr_order_spec_witness :
    (runParallelOcr (fun n : Nat => n * 10) true [4, 5, 6] [2, 0, 1] false false).1
      = .ok [40, 50, 60] := by
  have h := (runParallelOcr_order_spec (fun n : Nat => n * 10)).1
    [4, 5, 6] true false [2, 0, 1] (by decide)
  rw [h]
  rfl

/-- C7 counterexample: (i) a pre-set cancellation signal does not stop
`extract_text_from_image_pdf` on a zero-page document — it returns the
result `"\n"` instead of raising the cancellation error (the `return "\n"`
at `_pdf.py:479` runs before any cancellation check); (ii) a cancellation
raised while collecting pool results IS absorbed by the generic
pool-failure fallback (`except (OSError, RuntimeError)` at
`_parallel.py:163`, which catches `OCRCancelledError` because it subclasses
`RuntimeError`): the recorded fallback flag is `true`, so the batch is
rerun sequentially, contradicting the claim that no generic handler catches
it. -/
theorem cancellation_claim_counterexample :
    extractTextFromImagePdfE [] true = .ok "\n" ∧
    (runParallelOcr (fun n : Nat => n + 1) true [3, 4] [0, 1] true false).2 = true := by
  exact ⟨rfl, rfl⟩

/-- C7 amended: a pre-set cancellation signal makes the dispatcher raise the
distinct cancellation error for every nonempty input (although a
cancellation raised while collecting pool results is first caught by the
generic pool-failure fallback — `OCRCancelledError` subclasses
`RuntimeError` — the sequential rerun immediately re-checks the still-set
signal and re-raises it, so the caller still receives the cancellation
error and no results); text extraction raises for every document with at
least one page, while a zero-page document returns `"\n"` without raising;
`extract_text_to_file` re-checks the signal immediately before its file
write and raises with the output file untouched in every case, including
zero pages; and the cancellation error is distinct from the other error
kinds. -/
theorem cancellation_spec_amended {α β : Type} [Inhabited α] [Inhabited β]
    (worker : α → β) :
    (∀ (parallel poolFails : Bool) (images : List α) (order : List Nat),
        images ≠ [] → order.Perm (List.range images.length) →
        (runParallelOcr worker parallel images order true poolFails).1
          = .error .cancelled) ∧
    (∀ pages : List String, pages ≠ [] →
        extractTextFromImagePdfE pages true = .error .cancelled) ∧
    (∀ (pages : List String) (outFile : Option String),
        extractTextToFileModel pages true outFile = (.error .cancelled, outFile)) ∧
    caughtByPoolFallback .cancelled = true ∧
    PyErr.cancelled ≠ PyErr.osError ∧ PyErr.cancelled ≠ PyErr.runtimeError := by
  refine ⟨?_, ?_, ?_, rfl, by simp, by simp⟩
  · intro parallel poolFails images order hne hperm
    rcases images with _ | ⟨img, rest⟩
    · exact absurd rfl hne
    · have hseq : runSequentialE worker (img :: rest) true = .error .cancelled := by
        simp [runSequentialE]
      by_cases hpar : (parallel && decide (1 < rest.length + 1)) = true
      · have hcondf : ¬ ((!(parallel && decide (1 < rest.length + 1))) = true) := by
          rw [hpar]; simp
        rcases hpf : poolFails with _ | _
        · rcases horder : order with _ | ⟨o, os⟩
          · subst horder
            have := hperm.length_eq
            simp at this
          · have hpw : runWithPoolE worker (img :: rest) (o :: os) true false
                = .error .cancelled := by
              simp [runWithPoolE, poolCollect]
            simp only [runParallelOcr, List.length_cons]
            rw [if_neg (Nat.succ_ne_zero _), if_neg hcondf, hpw]
            simp [caughtByPoolFallback, isRuntimeError, hseq]
        · have hpw : runWithPoolE worker (img :: rest) order true true
              = .error .osError := by
            simp [runWithPoolE]
          simp only [runParallelOcr, List.length_cons]
          rw [if_neg (Nat.succ_ne_zero _), if_neg hcondf, hpw]
          simp [caughtByPoolFallback, isOSError, hseq]
      · have hcond : (!(parallel && decide (1 < rest.length + 1))) = true := by
          rw [Bool.eq_false_iff.mpr hpar]; rfl
        simp only [runParallelOcr, List.length_cons]
        rw [if_neg (Nat.succ_ne_zero _), if_pos hcond]
        simp [hseq]
  · intro pages hne
    rcases pages with _ | ⟨p, rest⟩
    · exact absurd rfl hne
    · simp [extractTextFromImagePdfE]
  · intro pages outFile
    rcases pages with _ | ⟨p, rest⟩
    · simp [extractTextToFileModel, extractTextFromImagePdfE]
    · simp [extractTextToFileModel, extractTextFromImagePdfE]

/-- Witness for the amended C7: a concrete cancelled parallel batch raises
the cancellation error, and a concrete `extract_text_to_file` call under a
pre-set signal raises it too, leaving a non-existent output file
non-existent. -/
theorem cancellation_spec_amended_witness :
    (runParallelOcr (fun n : Nat => n + 1) true [3, 4] [0, 1] true false).1
        = .error .cancelled ∧
    extractTextToFileModel ["x"] true none = (.error .cancelled, none) := by
  exact ⟨(cancellation_spec_amended (fun n : Nat => n + 1)).1 true false [3, 4] [0, 1]
      (by simp) (by decide),
    (cancellation_spec_amended (fun n : Nat => n + 1)).2.2.1 ["x"] none⟩

theorem buildPageTexts_eq (pages : List String) (n : Nat) :
    buildPageTexts pages n
      = (List.enumFrom n pages).map
          (fun p => "--- ページ " ++ toString (p.1 + 1) ++ " ---\n" ++ pyStrip p.2 ++ "\n") := by
  induction pages generalizing n with
  | nil => simp [buildPageTexts]
  | cons t rest ih => simp [buildPageTexts, List.enumFrom, ih]

/-- C9 counterexample: the page header emitted by
`extract_text_from_image_pdf` is the Japanese literal `"--- ページ N ---"`
(`_pdf.py:504`), not the ASCII literal `"--- page N ---"` the claim states:
on a one-page document whose reconstructed text is `"hello"` the output is
`"--- ページ 1 ---\nhello\n"` and differs from `"--- page 1 ---\nhello\n"`. -/
theorem extractText_header_counterexample :
    extractTextFromImagePdfModel ["hello"] = "--- ページ 1 ---\nhello\n" ∧
    extractTextFromImagePdfModel ["hello"] ≠ "--- page 1 ---\nhello\n" := by
  constructor
  · decide
  · decide

/-- C9 amended: `extractTextFromImagePdf` returns the per-page reconstructed
texts concatenated as blocks labeled with the literal header
`"--- ページ N ---"` (ページ is Japanese for "page") in ascending 1-based
page order, each page text stripped, the whole output stripped and given a
guaranteed trailing newline; a zero-page input yields exactly the
single-character string `"\n"`. -/
theorem extractText_header_spec_amended (pages : List String) :
    (pages = [] → extractTextFromImagePdfModel pages = "\n") ∧
    (pages ≠ [] →
        extractTextFromImagePdfModel pages
          = pyStrip (String.intercalate "\n"
              ((List.enumFrom 0 pages).map (fun p =>
                "--- ページ " ++ toString (p.1 + 1) ++ " ---\n" ++ pyStrip p.2 ++ "\n")))
            ++ "\n") ∧
    (extractTextFromImagePdfModel pages).data ≠ [] ∧
    (extractTextFromImagePdfModel pages).data.getLast? = some '\n' := by
  refine ⟨?_, ?_, ?_, ?_⟩
  · intro h; subst h; rfl
  · intro hne
    have hlen : pages.length ≠ 0 := by
      simpa using fun h => hne (List.length_eq_zero.mp h)
    simp only [extractTextFromImagePdfModel, if_neg hlen]
    rw [buildPageTexts_eq]
  · rcases pages with _ | ⟨p, rest⟩
    · simp [extractTextFromImagePdfModel]
    · have hlen : (p :: rest).length ≠ 0 := by simp
      simp only [extractTextFromImagePdfModel, if_neg hlen]
      intro h
      have := congrArg List.length h
      simp [String.data_append] at this
  · rcases pages with _ | ⟨p, rest⟩
    · simp [extractTextFromImagePdfModel]
    · have hlen : (p :: rest).length ≠ 0 := by simp
      simp only [extractTextFromImagePdfModel, if_neg hlen]
      rw [String.data_append]
      exact List.getLast?_concat _

/-- Witness for the amended C9: a two-page document renders both headers in
ascending order with the trailing newline. -/
theorem extractText_header_spec_amended_witness :
    extractTextFromImagePdfModel ["a", "b"]
      = "--- ページ 1 ---\na\n\n--- ページ 2 ---\nb\n" := by
  have h := (extractText_header_spec_amended ["a", "b"]).2.1 (by simp)
  rw [h]
  decide

/-- Round-half-to-even never exceeds an integer bound that the argument
respects. -/
theorem pyRound_le (q : ℚ) (n : Int) (h : q ≤ n) : pyRound q ≤ n := by
  have hf : ⌊q⌋ ≤ n := by
    have hmono := Int.floor_le_floor h
    simpa using hmono
  have hhalf : (1 : ℚ) / 2 ≤ q - ⌊q⌋ → ⌊q⌋ + 1 ≤ n := by
    intro hr
    by_contra hlt
    push_neg at hlt
    have hn : n = ⌊q⌋ := by omega
    have hq1 : (⌊q⌋ : ℚ) + 1 / 2 ≤ q := by linarith
    have hq2 : (n : ℚ) < q := by
      rw [hn]
      linarith
    have hq3 : q ≤ (n : ℚ) := h
    linarith
  simp only [pyRound]
  by_cases h1 : q - ⌊q⌋ < 1 / 2
  · rw [if_pos h1]
    exact hf
  · rw [if_neg h1]
    have h2 := hhalf (not_lt.mp h1)
    by_cases h3 : 1 / 2 < q - ⌊q⌋
    · rw [if_pos h3]
      exact h2
    · rw [if_neg h3]
      by_cases h4 : Even ⌊q⌋
      · rw [if_pos h4]
        exact hf
      · rw [if_neg h4]
        exact h2

/-- C10: for every source image and positive target size, canvas
normalization returns an RGB canvas of exactly the target size; a source
with a non-positive dimension takes the blank white-canvas branch; and a
positive source is scaled by the fit-preserving factor
`min (tw/w, th/h)` with each scaled dimension rounded, clamped to at
least 1 pixel, fitting inside the target, and centered (offset equal to
half the remaining margin, never negative). -/
theorem normalizeImageForCanvas_spec (src : ImgMeta) (tw th : Int)
    (htw : 0 < tw) (hth : 0 < th) :
    (normalizeImageForCanvas src tw th).canvas = ⟨tw, th, "RGB"⟩ ∧
    (src.width ≤ 0 ∨ src.height ≤ 0 →
        (normalizeImageForCanvas src tw th).isBlank = true) ∧
    (0 < src.width → 0 < src.height →
        (normalizeImageForCanvas src tw th).isBlank = false ∧
        (normalizeImageForCanvas src tw th).pastedWidth
          = max 1 (pyRound (src.width *
              min ((tw : ℚ) / src.width) ((th : ℚ) / src.height))) ∧
        (normalizeImageForCanvas src tw th).pastedHeight
          = max 1 (pyRound (src.height *
              min ((tw : ℚ) / src.width) ((th : ℚ) / src.height))) ∧
        1 ≤ (normalizeImageForCanvas src tw th).pastedWidth ∧
        (normalizeImageForCanvas src tw th).pastedWidth ≤ tw ∧
        1 ≤ (normalizeImageForCanvas src tw th).pastedHeight ∧
        (normalizeImageForCanvas src tw th).pastedHeight ≤ th ∧
        (normalizeImageForCanvas src tw th).offsetX
          = (tw - (normalizeImageForCanvas src tw th).pastedWidth) / 2 ∧
        (normalizeImageForCanvas src tw th).offsetY
          = (th - (normalizeImageForCanvas src tw th).pastedHeight) / 2 ∧
        0 ≤ (normalizeImageForCanvas src tw th).offsetX ∧
        0 ≤ (normalizeImageForCanvas src tw th).offsetY) := by
  by_cases hdeg : src.width ≤ 0 ∨ src.height ≤ 0
  · refine ⟨?_, fun _ => ?_, fun hw hh => ?_⟩
    · simp [normalizeImageForCanvas, hdeg]
    · simp [normalizeImageForCanvas, hdeg]
    · rcases hdeg with h | h
      · exact absurd hw (not_lt.mpr h)
      · exact absurd hh (not_lt.mpr h)
  · push_neg at hdeg
    obtain ⟨hw, hh⟩ := hdeg
    have hwq : (0 : ℚ) < src.width := by exact_mod_cast hw
    have hhq : (0 : ℚ) < src.height := by exact_mod_cast hh
    have htwq : (0 : ℚ) < tw := by exact_mod_cast htw
    have hthq : (0 : ℚ) < th := by exact_mod_cast hth
    have hspos : 0 < min ((tw : ℚ) / src.width) ((th : ℚ) / src.height) :=
      lt_min (div_pos htwq hwq) (div_pos hthq hhq)
    have hsif : ¬ (min ((tw : ℚ) / src.width) ((th : ℚ) / src.height) ≤ 0) :=
      not_le.mpr hspos
    have hnotdeg : ¬ (src.width ≤ 0 ∨ src.height ≤ 0) := by
      push_neg
      exact ⟨hw, hh⟩
    have hwscale : (src.width : ℚ) *
        min ((tw : ℚ) / src.width) ((th : ℚ) / src.height) ≤ tw := by
      have h1 : (src.width : ℚ) * min ((tw : ℚ) / src.width) ((th : ℚ) / src.height)
          ≤ (src.width : ℚ) * ((tw : ℚ) / src.width) :=
        mul_le_mul_of_nonneg_left (min_le_left _ _) hwq.le
      have h2 : (src.width : ℚ) * ((tw : ℚ) / src.width) = tw := by
        field_simp
      linarith
    have hhscale : (src.height : ℚ) *
        min ((tw : ℚ) / src.width) ((th : ℚ) / src.height) ≤ th := by
      have h1 : (src.height : ℚ) * min ((tw : ℚ) / src.width) ((th : ℚ) / src.height)
          ≤ (src.height : ℚ) * ((th : ℚ) / src.height) :=
        mul_le_mul_of_nonneg_left (min_le_right _ _) hhq.le
      have h2 : (src.height : ℚ) * ((th : ℚ) / src.height) = th := by
        field_simp
      linarith
    have hpw : max 1 (pyRound (src.width *
        min ((tw : ℚ) / src.width) ((th : ℚ) / src.height))) ≤ tw :=
      max_le (by omega) (pyRound_le _ _ hwscale)
    have hph : max 1 (pyRound (src.height *
        min ((tw : ℚ) / src.width) ((th : ℚ) / src.height))) ≤ th :=
      max_le (by omega) (pyRound_le _ _ hhscale)
    have hres : normalizeImageForCanvas src tw th
        = ⟨⟨tw, th, "RGB"⟩,
            max 1 (pyRound (src.width *
              min ((tw : ℚ) / src.width) ((th : ℚ) / src.height))),
            max 1 (pyRound (src.height *
              min ((tw : ℚ) / src.width) ((th : ℚ) / src.height))),
            max (Int.fdiv (tw - max 1 (pyRound (src.width *
              min ((tw : ℚ) / src.width) ((th : ℚ) / src.height)))) 2) 0,
            max (Int.fdiv (th - max 1 (pyRound (src.height *
              min ((tw : ℚ) / src.width) ((th : ℚ) / src.height)))) 2) 0,
            false⟩ := by
      simp only [normalizeImageForCanvas, if_neg hnotdeg, if_neg hsif]
    have hfx : Int.fdiv (tw - max 1 (pyRound (src.width *
        min ((tw : ℚ) / src.width) ((th : ℚ) / src.height)))) 2
        = (tw - max 1 (pyRound (src.width *
            min ((tw : ℚ) / src.width) ((th : ℚ) / src.height)))) / 2 :=
      Int.fdiv_eq_ediv _ (by omega)
    have hfy : Int.fdiv (th - max 1 (pyRound (src.height *
        min ((tw : ℚ) / src.width) ((th : ℚ) / src.height)))) 2
        = (th - max 1 (pyRound (src.height *
            min ((tw : ℚ) / src.width) ((th : ℚ) / src.height)))) / 2 :=
      Int.fdiv_eq_ediv _ (by omega)
    refine ⟨by rw [hres], fun hcon => absurd hcon hnotdeg, fun _ _ => ?_⟩
    rw [hres]
    simp only
    refine ⟨trivial, trivial, trivial, le_max_left _ _, hpw, le_max_left _ _, hph,
      ?_, ?_, le_max_right _ _, le_max_right _ _⟩
    · rw [hfx]
      exact max_eq_left (Int.ediv_nonneg (by omega) (by omega))
    · rw [hfy]
      exact max_eq_left (Int.ediv_nonneg (by omega) (by omega))

/-- Witness for C10: a 100×200 source on a 300×400 canvas yields an RGB
canvas of exactly 300×400, and a zero-width source takes the blank
branch. -/
theorem normalizeImageForCanvas_spec_witness :
    (normalizeImageForCanvas ⟨100, 200, "L"⟩ 300 400).canvas = ⟨300, 400, "RGB"⟩ ∧
    (normalizeImageForCanvas ⟨0, 200, "L"⟩ 300 400).isBlank = true := by
  exact ⟨(normalizeImageForCanvas_spec ⟨100, 200, "L"⟩ 300 400
      (by norm_num) (by norm_num)).1,
    (normalizeImageForCanvas_spec ⟨0, 200, "L"⟩ 300 400
      (by norm_num) (by norm_num)).2.1 (Or.inl le_rfl)⟩

/-! ### Sanitizer lemmas -/

theorem splitWsGo_wf (l : List Char) :
    ∀ acc, (∀ c ∈ acc, pyIsSpace c = false) →
      ∀ t ∈ splitWsGo l acc, t ≠ [] ∧ ∀ c ∈ t, pyIsSpace c = false := by
  induction l with
  | nil =>
      intro acc hacc t ht
      rcases acc with _ | ⟨a, acc'⟩
      · simp [splitWsGo] at ht
      · simp only [splitWsGo, List.isEmpty_cons, if_neg] at ht
        rcases List.mem_singleton.mp (by simpa using ht) with rfl
        refine ⟨by simp, ?_⟩
        intro c hc
        have hc' : c ∈ a :: acc' := by
          simpa [List.mem_append, List.mem_reverse, or_comm] using hc
        exact hacc c hc'
  | cons c cs ih =>
      intro acc hacc t ht
      by_cases hsp : pyIsSpace c = true
      · rcases acc with _ | ⟨a, acc'⟩
        · simp only [splitWsGo, hsp, if_pos, List.isEmpty_nil] at ht
          exact ih [] (by simp) t (by simpa using ht)
        · simp only [splitWsGo, hsp, if_pos, List.isEmpty_cons] at ht
          rcases List.mem_cons.mp (by simpa using ht) with rfl | hmem
          · refine ⟨by simp, ?_⟩
            intro x hx
            have hx' : x ∈ a :: acc' := by
              simpa [List.mem_append, List.mem_reverse, or_comm] using hx
            exact hacc x hx'
          · exact ih [] (by simp) t hmem
      · have hsp' : pyIsSpace c = false := by
          cases h : pyIsSpace c
          · rfl
          · exact absurd h hsp
        simp only [splitWsGo, hsp', Bool.false_eq_true, if_neg, not_false_iff] at ht
        refine ih (c :: acc) ?_ t ht
        intro x hx
        rcases List.mem_cons.mp hx with rfl | hmem
        · exact hsp'
        · exact hacc x hmem

/-- Tokens produced by `splitWs` are nonempty and whitespace-free. -/
theorem splitWs_wf (l : List Char) :
    ∀ t ∈ splitWs l, t ≠ [] ∧ ∀ c ∈ t, pyIsSpace c = false :=
  splitWsGo_wf l [] (by simp)

theorem sanitizeLoop_sublist : ∀ ts : List (List Char), (sanitizeLoop ts).Sublist ts
  | [] => by simp [sanitizeLoop]
  | [t] => by
      simp only [sanitizeLoop]
      by_cases h1 : hasShellMeta t = true
      · simp [h1]
      · simp only [h1, Bool.false_eq_true, if_neg, not_false_iff]
        by_cases h2 : t ∈ allowedTesseractFlags
        · simp [h2]
        · simp [h2]
  | t :: v :: rest' => by
      simp only [sanitizeLoop]
      by_cases h1 : hasShellMeta t = true
      · simp only [h1, if_pos]
        exact (sanitizeLoop_sublist (v :: rest')).cons t
      · simp only [h1, Bool.false_eq_true, if_neg, not_false_iff]
        by_cases h2 : t ∈ allowedTesseractFlags
        · simp only [h2, if_pos]
          by_cases h3 : startsWithDash v = true
          · simp only [h3, if_pos]
            exact (sanitizeLoop_sublist (v :: rest')).cons₂ t
          · simp only [h3, Bool.false_eq_true, if_neg, not_false_iff]
            by_cases h4 : hasShellMeta v = true
            · simp only [h4, if_pos]
              exact ((sanitizeLoop_sublist rest').cons v).cons₂ t
            · simp only [h4, Bool.false_eq_true, if_neg, not_false_iff]
              exact ((sanitizeLoop_sublist rest').cons₂ v).cons₂ t
        · simp only [h2, if_neg, not_false_iff]
          exact (sanitizeLoop_sublist (v :: rest')).cons t

theorem sanitizeLoop_no_meta : ∀ ts : List (List Char),
    ∀ t ∈ sanitizeLoop ts, hasShellMeta t = false
  | [] => by simp [sanitizeLoop]
  | [t] => by
      intro u hu
      simp only [sanitizeLoop] at hu
      by_cases h1 : hasShellMeta t = true
      · simp [h1] at hu
      · have h1' : hasShellMeta t = false := by
          cases h : hasShellMeta t
          · rfl
          · exact absurd h h1
        simp only [h1', Bool.false_eq_true, if_neg, not_false_iff] at hu
        by_cases h2 : t ∈ allowedTesseractFlags
        · simp only [h2, if_pos] at hu
          rcases List.mem_singleton.mp hu with rfl
          exact h1'
        · simp [h2] at hu
  | t :: v :: rest' => by
      intro u hu
      simp only [sanitizeLoop] at hu
      by_cases h1 : hasShellMeta t = true
      · simp only [h1, if_pos] at hu
        exact sanitizeLoop_no_meta (v :: rest') u hu
      · have h1' : hasShellMeta t = false := by
          cases h : hasShellMeta t
          · rfl
          · exact absurd h h1
        simp only [h1', Bool.false_eq_true, if_neg, not_false_iff] at hu
        by_cases h2 : t ∈ allowedTesseractFlags
        · simp only [h2, if_pos] at hu
          by_cases h3 : startsWithDash v = true
          · simp only [h3, if_pos] at hu
            rcases List.mem_cons.mp hu with rfl | hmem
            · exact h1'
            · exact sanitizeLoop_no_meta (v :: rest') u hmem
          · simp only [h3, Bool.false_eq_true, if_neg, not_false_iff] at hu
            by_cases h4 : hasShellMeta v = true
            · simp only [h4, if_pos] at hu
              rcases List.mem_cons.mp hu with rfl | hmem
              · exact h1'
              · exact sanitizeLoop_no_meta rest' u hmem
            · have h4' : hasShellMeta v = false := by
                cases h : hasShellMeta v
                · rfl
                · exact absurd h h4
              simp only [h4', Bool.false_eq_true, if_neg, not_false_iff] at hu
              rcases List.mem_cons.mp hu with rfl | hmem
              · exact h1'
              · rcases List.mem_cons.mp hmem with rfl | hmem'
                · exact h4'
                · exact sanitizeLoop_no_meta rest' u hmem'
        · simp only [h2, if_neg, not_false_iff] at hu
          exact sanitizeLoop_no_meta (v :: rest') u hu

theorem allowed_no_meta :
    ∀ f ∈ allowedTesseractFlags, hasShellMeta f = false := by
  decide

theorem allowed_dash :
    ∀ f ∈ allowedTesseractFlags, startsWithDash f = true := by
  decide

theorem sanOut_head {l : List (List Char)} (h : SanOut l) :
    ∀ t, l.head? = some t → t ∈ allowedTesseractFlags := by
  cases h with
  | nil => intro t ht; simp at ht
  | flagOnly f rest hf _ =>
      intro t ht
      rcases Option.some.inj (by simpa using ht) with rfl
      exact hf
  | flagVal f v rest hf _ _ _ =>
      intro t ht
      rcases Option.some.inj (by simpa using ht) with rfl
      exact hf

theorem sanOut_sanitizeLoop : ∀ ts : List (List Char), SanOut (sanitizeLoop ts)
  | [] => by simpa [sanitizeLoop] using SanOut.nil
  | [t] => by
      simp only [sanitizeLoop]
      by_cases h1 : hasShellMeta t = true
      · simpa [h1] using SanOut.nil
      · simp only [h1, Bool.false_eq_true, if_neg, not_false_iff]
        by_cases h2 : t ∈ allowedTesseractFlags
        · simpa [h2] using SanOut.flagOnly t [] h2 SanOut.nil
        · simpa [h2] using SanOut.nil
  | t :: v :: rest' => by
      simp only [sanitizeLoop]
      by_cases h1 : hasShellMeta t = true
      · simpa [h1] using sanOut_sanitizeLoop (v :: rest')
      · simp only [h1, Bool.false_eq_true, if_neg, not_false_iff]
        by_cases h2 : t ∈ allowedTesseractFlags
        · simp only [h2, if_pos]
          by_cases h3 : startsWithDash v = true
          · simpa [h3] using
              SanOut.flagOnly t _ h2 (sanOut_sanitizeLoop (v :: rest'))
          · have h3' : startsWithDash v = false := by
              cases h : startsWithDash v
              · rfl
              · exact absurd h h3
            simp only [h3', Bool.false_eq_true, if_neg, not_false_iff]
            by_cases h4 : hasShellMeta v = true
            · simpa [h4] using SanOut.flagOnly t _ h2 (sanOut_sanitizeLoop rest')
            · have h4' : hasShellMeta v = false := by
                cases h : hasShellMeta v
                · rfl
                · exact absurd h h4
              simpa [h4'] using
                SanOut.flagVal t v _ h2 h3' h4' (sanOut_sanitizeLoop rest')
        · simpa [h2] using sanOut_sanitizeLoop (v :: rest')

theorem sanitizeLoop_fixed {l : List (List Char)} (h : SanOut l) :
    sanitizeLoop l = l := by
  induction h with
  | nil => rfl
  | flagOnly f rest hf hrest ih =>
      have hfm := allowed_no_meta f hf
      rcases rest with _ | ⟨g, rest₂⟩
      · simp [sanitizeLoop, hfm, hf]
      · have hg : g ∈ allowedTesseractFlags := sanOut_head hrest g rfl
        have hgd := allowed_dash g hg
        simp only [sanitizeLoop, hfm, Bool.false_eq_true, if_neg, not_false_iff,
          hf, if_pos, hgd]
        rw [ih]
  | flagVal f v rest hf hvd hvm hrest ih =>
      have hfm := allowed_no_meta f hf
      simp only [sanitizeLoop, hfm, Bool.false_eq_true, if_neg, not_false_iff,
        hf, if_pos, hvd, hvm]
      rw [ih]

theorem sanOut_chain {l : List (List Char)} (h : SanOut l) :
    List.Chain'
      (fun a b => b ∈ allowedTesseractFlags ∨
        (a ∈ allowedTesseractFlags ∧ startsWithDash b = false ∧ hasShellMeta b = false))
      l := by
  induction h with
  | nil => simp
  | flagOnly f rest hf hrest ih =>
      rcases rest with _ | ⟨g, rest₂⟩
      · simp
      · exact List.chain'_cons.mpr ⟨Or.inl (sanOut_head hrest g rfl), ih⟩
  | flagVal f v rest hf hvd hvm hrest ih =>
      refine List.chain'_cons.mpr ⟨Or.inr ⟨hf, hvd, hvm⟩, ?_⟩
      rcases rest with _ | ⟨g, rest₂⟩
      · simp
      · exact List.chain'_cons.mpr ⟨Or.inl (sanOut_head hrest g rfl), ih⟩

theorem splitWsGo_append_nospace (t : List Char) :
    ∀ (l acc : List Char), (∀ c ∈ t, pyIsSpace c = false) →
      splitWsGo (t ++ l) acc = splitWsGo l (t.reverse ++ acc) := by
  induction t with
  | nil => intro l acc _; simp
  | cons c t' ih =>
      intro l acc hns
      have hc : pyIsSpace c = false := hns c (List.mem_cons_self _ _)
      simp only [List.cons_append, splitWsGo, hc, Bool.false_eq_true, if_neg,
        not_false_iff]
      rw [List.reverse_cons, List.append_assoc]
      exact ih l (c :: acc) (fun x hx => hns x (List.mem_cons_of_mem _ hx))

theorem intercalate_space_cons₂ (x y : List Char) (tl : List (List Char)) :
    List.intercalate [' '] (x :: y :: tl)
      = x ++ ' ' :: List.intercalate [' '] (y :: tl) := by
  simp [List.intercalate]

theorem mem_intercalate_space :
    ∀ (ts : List (List Char)) (c : Char), c ∈ List.intercalate [' '] ts →
      c = ' ' ∨ ∃ t ∈ ts, c ∈ t
  | [], c, hc => by simp [List.intercalate] at hc
  | [t], c, hc => Or.inr ⟨t, by simp, by simpa [List.intercalate] using hc⟩
  | t :: u :: tl, c, hc => by
      rw [intercalate_space_cons₂] at hc
      rcases List.mem_append.mp hc with h | h
      · exact Or.inr ⟨t, by simp, h⟩
      · rcases List.mem_cons.mp h with rfl | h2
        · exact Or.inl rfl
        · rcases mem_intercalate_space (u :: tl) c h2 with h3 | ⟨t', ht', hct⟩
          · exact Or.inl h3
          · exact Or.inr ⟨t', List.mem_cons_of_mem _ ht', hct⟩

/-- Splitting on whitespace is a left inverse of space-joining, for
nonempty whitespace-free tokens. -/
theorem splitWs_intercalate :
    ∀ ts : List (List Char),
      (∀ t ∈ ts, t ≠ [] ∧ ∀ c ∈ t, pyIsSpace c = false) →
      splitWs (List.intercalate [' '] ts) = ts
  | [], _ => rfl
  | [t], h => by
      have ht := h t (by simp)
      have hjoin : List.intercalate [' '] [t] = t := by simp [List.intercalate]
      rw [hjoin]
      show splitWsGo t [] = [t]
      have := splitWsGo_append_nospace t [] [] ht.2
      rw [List.append_nil, List.append_nil] at this
      rw [this]
      have hne : t.reverse.isEmpty = false := by
        cases hrev : t.reverse
        · exact absurd (by simpa using hrev) ht.1
        · rfl
      simp [splitWsGo, hne]
  | t :: u :: tl, h => by
      have ht := h t (by simp)
      rw [intercalate_space_cons₂]
      show splitWsGo (t ++ ' ' :: List.intercalate [' '] (u :: tl)) [] = t :: u :: tl
      rw [splitWsGo_append_nospace t _ [] ht.2, List.append_nil]
      have hsp : pyIsSpace ' ' = true := rfl
      have hne : t.reverse.isEmpty = false := by
        cases hrev : t.reverse
        · exact absurd (by simpa using hrev) ht.1
        · rfl
      simp only [splitWsGo, hsp, if_pos, hne, Bool.false_eq_true, if_neg,
        not_false_iff, List.reverse_reverse]
      rw [show splitWsGo (List.intercalate [' '] (u :: tl)) [] = splitWs (List.intercalate [' '] (u :: tl)) from rfl]
      rw [splitWs_intercalate (u :: tl) (fun x hx => h x (List.mem_cons_of_mem _ hx))]

/-- C5: the sanitizer's output contains no shell metacharacter; the
surviving tokens form a subsequence of the input tokens (order preserved),
are each metacharacter-free, start with a whitelisted flag, and every
surviving token is either a whitelisted flag or a dash-free,
metacharacter-free value standing immediately after a whitelisted flag.
Determinism and purity hold by construction: the sanitizer is a total Lean
function of its input string. -/
theorem sanitizeTesseractConfig_safe (raw : String) :
    (∀ c ∈ (sanitizeTesseractConfig raw).data, isShellMeta c = false) ∧
    (sanitizeLoop (splitWs raw.data)).Sublist (splitWs raw.data) ∧
    (∀ t ∈ sanitizeLoop (splitWs raw.data), hasShellMeta t = false) ∧
    (∀ t, (sanitizeLoop (splitWs raw.data)).head? = some t →
        t ∈ allowedTesseractFlags) ∧
    List.Chain'
      (fun a b => b ∈ allowedTesseractFlags ∨
        (a ∈ allowedTesseractFlags ∧ startsWithDash b = false ∧ hasShellMeta b = false))
      (sanitizeLoop (splitWs raw.data)) := by
  refine ⟨?_, sanitizeLoop_sublist _, sanitizeLoop_no_meta _,
    sanOut_head (sanOut_sanitizeLoop _), sanOut_chain (sanOut_sanitizeLoop _)⟩
  intro c hc
  by_cases hraw : raw.data.isEmpty = true
  · rw [sanitizeTesseractConfig, if_pos hraw] at hc
    simp at hc
  · rw [sanitizeTesseractConfig, if_neg hraw] at hc
    have hc' : c ∈ List.intercalate [' '] (sanitizeLoop (splitWs raw.data)) := hc
    rcases mem_intercalate_space _ c hc' with rfl | ⟨t, ht, hct⟩
    · decide
    · have hnm := sanitizeLoop_no_meta _ t ht
      have : ¬ (t.any isShellMeta = true) := by
        rw [hasShellMeta] at hnm
        simp [hnm]
      simp only [List.any_eq_true, not_exists, not_and] at this
      have h2 := this c
      cases h : isShellMeta c
      · rfl
      · exact absurd h (by simpa using h2 hct)

/-- Witness for C5: the injection attempt `"--oem 1; rm -rf /"` sanitizes
to exactly `"--oem"`, and the theorem applied there gives the
order-preservation subsequence fact. -/
theorem sanitizeTesseractConfig_safe_witness :
    sanitizeTesseractConfig "--oem 1; rm -rf /" = "--oem" ∧
    (sanitizeLoop (splitWs ("--oem 1; rm -rf /").data)).Sublist
      (splitWs ("--oem 1; rm -rf /").data) := by
  exact ⟨by decide, (sanitizeTesseractConfig_safe "--oem 1; rm -rf /").2.1⟩

/-- C6: sanitizing twice equals sanitizing once.  The sanitizer's output is
a list of nonempty, whitespace-free, metacharacter-free tokens in
flag/value shape; splitting its space-joined form recovers exactly those
tokens, and the whitelist loop leaves them unchanged. -/
theorem sanitizeTesseractConfig_idempotent (raw : String) :
    sanitizeTesseractConfig (sanitizeTesseractConfig raw)
      = sanitizeTesseractConfig raw := by
  by_cases hraw : raw.data.isEmpty = true
  · have h1 : sanitizeTesseractConfig raw = "" := by
      rw [sanitizeTesseractConfig, if_pos hraw]
    rw [h1]
    rfl
  · rw [show sanitizeTesseractConfig raw
        = String.mk (List.intercalate [' '] (sanitizeLoop (splitWs raw.data))) from by
      rw [sanitizeTesseractConfig, if_neg hraw]]
    have hwf : ∀ t ∈ sanitizeLoop (splitWs raw.data),
        t ≠ [] ∧ ∀ c ∈ t, pyIsSpace c = false :=
      fun t ht => splitWs_wf raw.data t ((sanitizeLoop_sublist _).mem ht)
    rcases houts : sanitizeLoop (splitWs raw.data) with _ | ⟨o, outs'⟩
    · rfl
    · have hne : (List.intercalate [' '] (o :: outs')).isEmpty = false := by
        have ho := hwf o (by rw [houts]; simp)
        rcases outs' with _ | ⟨o₂, outs₂⟩
        · cases hov : o
          · exact absurd (by simpa using hov) ho.1
          · simp [List.intercalate, hov]
        · rw [intercalate_space_cons₂]
          cases hov : o
          · exact absurd (by simpa using hov) ho.1
          · simp [hov]
      rw [sanitizeTesseractConfig]
      rw [if_neg (by simpa using hne)]
      have hsplit : splitWs (String.mk (List.intercalate [' '] (o :: outs'))).data
          = o :: outs' := by
        show splitWs (List.intercalate [' '] (o :: outs')) = o :: outs'
        exact splitWs_intercalate (o :: outs') (by rw [← houts]; exact hwf)
      rw [hsplit]
      rw [sanitizeLoop_fixed (houts ▸ sanOut_sanitizeLoop (splitWs raw.data))]

/-! ### Text-reconstruction lemmas -/

theorem reconStep_skip (cols : List String) (st : ReconState) (r : Row)
    (h : keepRow cols r = false) : reconStep cols st r = st := by
  have hs : (confLtZero (confOf cols r) || (pyStrip r.text == "")) = true := by
    cases hx : (confLtZero (confOf cols r) || (pyStrip r.text == ""))
    · exfalso
      have hk : keepRow cols r = true := by rw [keepRow, hx]; rfl
      have hcon := h
      rw [hk] at hcon
      exact absurd hcon (by decide)
    · rfl
  simp [reconStep, hs]

theorem foldl_reconStep_filter (cols : List String) :
    ∀ (rows : List Row) (st : ReconState),
      rows.foldl (reconStep cols) st
        = (rows.filter (keepRow cols)).foldl (reconStep cols) st := by
  intro rows
  induction rows with
  | nil => intro st; rfl
  | cons r rest ih =>
      intro st
      by_cases h : keepRow cols r = true
      · simp [List.foldl_cons, List.filter_cons, h, ih]
      · have h' : keepRow cols r = false := by
          cases hh : keepRow cols r
          · rfl
          · exact absurd hh h
        simp [List.foldl_cons, List.filter_cons, h', reconStep_skip cols st r h', ih]

theorem chunkRunsGo_append {α : Type} [DecidableEq α] (key : Row → α) :
    ∀ (run rows : List Row) (k : α) (cur : List Row),
      (∀ r ∈ run, key r = k) →
      chunkRunsGo key k cur (run ++ rows) = chunkRunsGo key k (run.reverse ++ cur) rows := by
  intro run
  induction run with
  | nil => intro rows k cur _; simp
  | cons r run' ih =>
      intro rows k cur hk
      have hr : key r = k := hk r (by simp)
      simp only [List.cons_append, chunkRunsGo, hr, if_pos]
      rw [List.reverse_cons, List.append_assoc]
      exact ih rows k (r :: cur) (fun x hx => hk x (List.mem_cons_of_mem _ hx))

theorem chunkRunsGo_shift {α : Type} [DecidableEq α] (key : Row → α) :
    ∀ (rows : List Row) (k : α) (cur : List Row),
      ∃ g gs, chunkRunsGo key k [] rows = g :: gs ∧
        chunkRunsGo key k cur rows = (cur.reverse ++ g) :: gs := by
  intro rows
  induction rows with
  | nil =>
      intro k cur
      exact ⟨[], [], rfl, by simp [chunkRunsGo]⟩
  | cons r rest ih =>
      intro k cur
      by_cases hr : key r = k
      · obtain ⟨g0, gs0, hA, hB⟩ := ih k [r]
        refine ⟨r :: g0, gs0, ?_, ?_⟩
        · show chunkRunsGo key k [] (r :: rest) = (r :: g0) :: gs0
          simp only [chunkRunsGo, hr, if_pos]
          simpa using hB
        · show chunkRunsGo key k cur (r :: rest) = (cur.reverse ++ r :: g0) :: gs0
          simp only [chunkRunsGo, hr, if_pos]
          obtain ⟨g1, gs1, hA1, hB1⟩ := ih k (r :: cur)
          rw [hA] at hA1
          injection hA1 with e1 e2
          rw [hB1, ← e1, ← e2]
          congr 1
          simp
      · refine ⟨[], chunkRunsGo key (key r) [r] rest, ?_, ?_⟩
        · simp [chunkRunsGo, hr]
        · simp [chunkRunsGo, hr]

theorem chunkRuns_cons {α : Type} [DecidableEq α] (key : Row → α) (r : Row)
    (rest : List Row) :
    chunkRuns key (r :: rest) = chunkRunsGo key (key r) [r] rest := rfl

theorem intercalate_cons_cons' {α : Type} (sep : List α) (x y : List α)
    (tl : List (List α)) :
    List.intercalate sep (x :: y :: tl) = x ++ sep ++ List.intercalate sep (y :: tl) := by
  simp [List.intercalate]

theorem intercalate_head_cons {α : Type} (sep : List α) (x : α) (A : List α)
    (tl : List (List α)) :
    List.intercalate sep ((x :: A) :: tl) = x :: List.intercalate sep (A :: tl) := by
  rcases tl with _ | ⟨B, tl'⟩
  · simp [List.intercalate]
  · rw [intercalate_cons_cons', intercalate_cons_cons']
    simp

/-- A uniform nonempty run is a single chunk. -/
theorem chunkRuns_uniform {α : Type} [DecidableEq α] (key : Row → α)
    (r0 : Row) (run' : List Row) (k : α) (h0 : key r0 = k)
    (h : ∀ x ∈ run', key x = k) :
    chunkRuns key (r0 :: run') = [r0 :: run'] := by
  rw [chunkRuns_cons, h0]
  have := chunkRunsGo_append key run' [] k [r0] h
  rw [List.append_nil] at this
  rw [this]
  simp [chunkRunsGo]

/-- Rendering a single-line uniform group gives its one space-joined
line. -/
theorem specGroupLines_uniform (cols : List String) (r0 : Row) (run' : List Row)
    (l : Int) (h0 : lineOf cols r0 = l) (h : ∀ x ∈ run', lineOf cols x = l) :
    specGroupLines cols (r0 :: run')
      = [String.intercalate " " ((r0 :: run').map (fun x => pyStrip x.text))] := by
  rw [specGroupLines, chunkRuns_uniform (lineOf cols) r0 run' l h0 h]
  rfl

theorem specLinesOf_uniform (cols : List String) (r0 : Row) (run' : List Row)
    (b p l : Int)
    (hbp : ∀ x ∈ r0 :: run', blockOf cols x = b ∧ parOf cols x = p)
    (hln : ∀ x ∈ r0 :: run', lineOf cols x = l) :
    specLinesOf cols (r0 :: run')
      = [String.intercalate " " ((r0 :: run').map (fun x => pyStrip x.text))] := by
  rw [specLinesOf, chunkRuns_uniform (fun r => (blockOf cols r, parOf cols r)) r0 run' (b, p)
    (by have := hbp r0 (by simp); simp [this.1, this.2])
    (fun x hx => by
      have := hbp x (List.mem_cons_of_mem _ hx)
      simp [this.1, this.2])]
  rw [List.map_singleton,
    specGroupLines_uniform cols r0 run' l (hln r0 (by simp))
      (fun x hx => hln x (List.mem_cons_of_mem _ hx))]
  rfl

theorem chunkRunsGo_shift' {α : Type} [DecidableEq α] (key : Row → α)
    (rows : List Row) (k : α) (cur : List Row) (g : List Row)
    (gs : List (List Row)) (hbase : chunkRunsGo key k [] rows = g :: gs) :
    chunkRunsGo key k cur rows = (cur.reverse ++ g) :: gs := by
  obtain ⟨g', gs', h1', h2'⟩ := chunkRunsGo_shift key rows k cur
  rw [hbase] at h1'
  injection h1' with e1 e2
  rw [h2', ← e1, ← e2]

/-- A uniform single-line run followed by a row of the same group but a
different line contributes exactly one line at the front of the group
rendering. -/
theorem specGroupLines_line_break (cols : List String) (r0 : Row)
    (run' : List Row) (r : Row) (g : List Row) (l : Int)
    (h0 : lineOf cols r0 = l) (hln : ∀ x ∈ run', lineOf cols x = l)
    (hrl : lineOf cols r ≠ l) :
    specGroupLines cols ((r0 :: run') ++ r :: g)
      = String.intercalate " " ((r0 :: run').map (fun x => pyStrip x.text))
          :: specGroupLines cols (r :: g) := by
  rw [specGroupLines]
  rw [show (r0 :: run') ++ r :: g = r0 :: (run' ++ r :: g) from by simp]
  rw [chunkRuns_cons, h0]
  rw [chunkRunsGo_append (lineOf cols) run' (r :: g) l [r0] hln]
  rw [show chunkRunsGo (lineOf cols) l (run'.reverse ++ [r0]) (r :: g)
      = (run'.reverse ++ [r0]).reverse :: chunkRunsGo (lineOf cols) (lineOf cols r) [r] g
      from by simp [chunkRunsGo, hrl]]
  rw [show (run'.reverse ++ [r0]).reverse = r0 :: run' from by simp]
  rw [List.map_cons]
  rw [specGroupLines, chunkRuns_cons]

/-- Prepending a uniform run that continues the head group but starts a new
line prepends exactly one rendered line. -/
theorem specLinesOf_line_break (cols : List String) (r0 : Row) (run' : List Row)
    (r : Row) (rest : List Row) (b p l : Int)
    (hbp : ∀ x ∈ r0 :: run', blockOf cols x = b ∧ parOf cols x = p)
    (hln : ∀ x ∈ r0 :: run', lineOf cols x = l)
    (hrb : blockOf cols r = b) (hrp : parOf cols r = p)
    (hrl : lineOf cols r ≠ l) :
    specLinesOf cols ((r0 :: run') ++ r :: rest)
      = String.intercalate " " ((r0 :: run').map (fun x => pyStrip x.text))
          :: specLinesOf cols (r :: rest) := by
  obtain ⟨g, gs, hbase, _⟩ :=
    chunkRunsGo_shift (fun r => (blockOf cols r, parOf cols r)) rest (b, p) []
  have hb0 := hbp r0 (by simp)
  have hchunk1 : chunkRuns (fun r => (blockOf cols r, parOf cols r))
      ((r0 :: run') ++ r :: rest) = ((r0 :: run') ++ r :: g) :: gs := by
    rw [show (r0 :: run') ++ r :: rest = r0 :: (run' ++ r :: rest) from by simp]
    rw [chunkRuns_cons]
    rw [show (blockOf cols r0, parOf cols r0) = (b, p) from by simp [hb0.1, hb0.2]]
    rw [chunkRunsGo_append (fun r => (blockOf cols r, parOf cols r)) run' (r :: rest) (b, p)
      [r0] (fun x hx => by
        have := hbp x (List.mem_cons_of_mem _ hx)
        simp [this.1, this.2])]
    rw [show chunkRunsGo (fun r => (blockOf cols r, parOf cols r)) (b, p)
        (run'.reverse ++ [r0]) (r :: rest)
        = chunkRunsGo (fun r => (blockOf cols r, parOf cols r)) (b, p)
            (r :: (run'.reverse ++ [r0])) rest from by
      simp [chunkRunsGo, hrb, hrp]]
    rw [chunkRunsGo_shift' _ rest (b, p) (r :: (run'.reverse ++ [r0])) g gs hbase]
    congr 1
    simp
  have hchunk2 : chunkRuns (fun r => (blockOf cols r, parOf cols r)) (r :: rest)
      = (r :: g) :: gs := by
    rw [chunkRuns_cons]
    rw [show (blockOf cols r, parOf cols r) = (b, p) from by simp [hrb, hrp]]
    rw [chunkRunsGo_shift' _ rest (b, p) [r] g gs hbase]
    rfl
  rw [specLinesOf, hchunk1, specLinesOf, hchunk2, List.map_cons, List.map_cons]
  rw [specGroupLines_line_break cols r0 run' r g l (hln r0 (by simp))
    (fun x hx => hln x (List.mem_cons_of_mem _ hx)) hrl]
  exact intercalate_head_cons _ _ _ _

/-- Prepending a uniform run that forms its own (block, paragraph) group
prepends its one line plus the blank separator. -/
theorem specLinesOf_group_break (cols : List String) (r0 : Row) (run' : List Row)
    (r : Row) (rest : List Row) (b p l : Int)
    (hbp : ∀ x ∈ r0 :: run', blockOf cols x = b ∧ parOf cols x = p)
    (hln : ∀ x ∈ r0 :: run', lineOf cols x = l)
    (hr : (blockOf cols r, parOf cols r) ≠ (b, p)) :
    specLinesOf cols ((r0 :: run') ++ r :: rest)
      = String.intercalate " " ((r0 :: run').map (fun x => pyStrip x.text))
          :: "" :: specLinesOf cols (r :: rest) := by
  have hb0 := hbp r0 (by simp)
  have hchunk1 : chunkRuns (fun r => (blockOf cols r, parOf cols r))
      ((r0 :: run') ++ r :: rest)
      = (r0 :: run') :: chunkRuns (fun r => (blockOf cols r, parOf cols r)) (r :: rest) := by
    rw [show (r0 :: run') ++ r :: rest = r0 :: (run' ++ r :: rest) from by simp]
    rw [chunkRuns_cons]
    rw [show (blockOf cols r0, parOf cols r0) = (b, p) from by simp [hb0.1, hb0.2]]
    rw [chunkRunsGo_append (fun r => (blockOf cols r, parOf cols r)) run' (r :: rest) (b, p)
      [r0] (fun x hx => by
        have := hbp x (List.mem_cons_of_mem _ hx)
        simp [this.1, this.2])]
    rw [show chunkRunsGo (fun r => (blockOf cols r, parOf cols r)) (b, p)
        (run'.reverse ++ [r0]) (r :: rest)
        = (run'.reverse ++ [r0]).reverse ::
            chunkRunsGo (fun r => (blockOf cols r, parOf cols r))
              (blockOf cols r, parOf cols r) [r] rest
        from by simp [chunkRunsGo, hr]]
    rw [show (run'.reverse ++ [r0]).reverse = r0 :: run' from by simp]
    rfl
  obtain ⟨g, gs, hbase, hcur⟩ :=
    chunkRunsGo_shift (fun r => (blockOf cols r, parOf cols r)) rest
      (blockOf cols r, parOf cols r) [r]
  have hchunk2 : chunkRuns (fun r => (blockOf cols r, parOf cols r)) (r :: rest)
      = (r :: g) :: gs := by
    rw [chunkRuns_cons, hcur]
    rfl
  rw [specLinesOf, hchunk1, hchunk2, List.map_cons, List.map_cons]
  rw [specGroupLines_uniform cols r0 run' l (hln r0 (by simp))
    (fun x hx => hln x (List.mem_cons_of_mem _ hx))]
  rw [intercalate_cons_cons']
  rw [specLinesOf, hchunk2, List.map_cons]
  simp

theorem keep_not_skip (cols : List String) (r : Row) (hk : keepRow cols r = true) :
    (confLtZero (confOf cols r) || (pyStrip r.text == "")) = false := by
  cases hx : (confLtZero (confOf cols r) || (pyStrip r.text == ""))
  · rfl
  · exfalso
    have hkf : keepRow cols r = false := by rw [keepRow, hx]; rfl
    rw [hkf] at hk
    exact absurd hk (by decide)

theorem reconStep_same_line (cols : List String) (lines cur : List String)
    (b p l : Int) (r : Row) (hk : keepRow cols r = true)
    (hb : blockOf cols r = b) (hp : parOf cols r = p) (hl : lineOf cols r = l) :
    reconStep cols ⟨lines, cur, b, p, l⟩ r
      = ⟨lines, cur ++ [pyStrip r.text], b, p, l⟩ := by
  simp [reconStep, keep_not_skip cols r hk, hb, hp, hl]

theorem reconStep_new_line (cols : List String) (lines cur : List String)
    (b p l : Int) (r : Row) (hk : keepRow cols r = true)
    (hb : blockOf cols r = b) (hp : parOf cols r = p) (hl : lineOf cols r ≠ l)
    (hl0 : 0 ≤ l) (hcur : cur ≠ []) :
    reconStep cols ⟨lines, cur, b, p, l⟩ r
      = ⟨lines ++ [String.intercalate " " cur], [pyStrip r.text], b, p,
          lineOf cols r⟩ := by
  have hcurE : cur.isEmpty = false := by
    cases cur
    · exact absurd rfl hcur
    · rfl
  have hlne : l ≠ -1 := by omega
  simp [reconStep, keep_not_skip cols r hk, hb, hp, hl, hlne, hcurE]

theorem reconStep_new_group (cols : List String) (lines cur : List String)
    (b p l : Int) (r : Row) (hk : keepRow cols r = true)
    (hbp : ¬ (blockOf cols r = b ∧ parOf cols r = p)) (hb0 : 0 ≤ b)
    (hcur : cur ≠ []) :
    reconStep cols ⟨lines, cur, b, p, l⟩ r
      = ⟨lines ++ [String.intercalate " " cur, ""], [pyStrip r.text],
          blockOf cols r, parOf cols r, lineOf cols r⟩ := by
  have hcurE : cur.isEmpty = false := by
    cases cur
    · exact absurd rfl hcur
    · rfl
  have hbne : b ≠ -1 := by omega
  have hdis : blockOf cols r ≠ b ∨ parOf cols r ≠ p := by
    rcases not_and_or.mp hbp with h | h
    · exact Or.inl h
    · exact Or.inr h
  simp [reconStep, keep_not_skip cols r hk, hbne, hdis, hcurE]

theorem reconStep_init (cols : List String) (r : Row)
    (hk : keepRow cols r = true) :
    reconStep cols ⟨[], [], -1, -1, -1⟩ r
      = ⟨[], [pyStrip r.text], blockOf cols r, parOf cols r, lineOf cols r⟩ := by
  simp [reconStep, keep_not_skip cols r hk]

/-- The imperative fold over kept rows computes exactly the renderer's
output, appended to the already-flushed lines. -/
theorem foldl_renderRows (cols : List String) :
    ∀ (rows : List Row) (b p l : Int) (lines cur : List String),
      (∀ r ∈ rows, keepRow cols r = true ∧ 0 ≤ blockOf cols r ∧ 0 ≤ lineOf cols r) →
      0 ≤ b → 0 ≤ l → cur ≠ [] →
      ((rows.foldl (reconStep cols) ⟨lines, cur, b, p, l⟩).lines ++
        (if (rows.foldl (reconStep cols) ⟨lines, cur, b, p, l⟩).cur.isEmpty then []
         else [String.intercalate " "
            (rows.foldl (reconStep cols) ⟨lines, cur, b, p, l⟩).cur]))
        = lines ++ renderRows cols b p l cur rows := by
  intro rows
  induction rows with
  | nil =>
      intro b p l lines cur _ hb hl hcur
      have hcurE : cur.isEmpty = false := by
        cases cur
        · exact absurd rfl hcur
        · rfl
      simp [renderRows, hcurE]
  | cons r rest ih =>
      intro b p l lines cur hrows hb hl hcur
      obtain ⟨hk, hbr, hlr⟩ := hrows r (by simp)
      have hrest : ∀ x ∈ rest,
          keepRow cols x = true ∧ 0 ≤ blockOf cols x ∧ 0 ≤ lineOf cols x :=
        fun x hx => hrows x (List.mem_cons_of_mem _ hx)
      rw [List.foldl_cons]
      by_cases h1 : blockOf cols r = b ∧ parOf cols r = p
      · by_cases h2 : lineOf cols r = l
        · rw [reconStep_same_line cols lines cur b p l r hk h1.1 h1.2 h2]
          rw [ih b p l lines (cur ++ [pyStrip r.text]) hrest hb hl (by simp)]
          congr 1
          simp [renderRows, h1.1, h1.2, h2]
        · rw [reconStep_new_line cols lines cur b p l r hk h1.1 h1.2 h2 hl hcur]
          rw [ih b p (lineOf cols r) (lines ++ [String.intercalate " " cur])
            [pyStrip r.text] hrest hb hlr (by simp)]
          rw [show renderRows cols b p l cur (r :: rest)
              = String.intercalate " " cur ::
                  renderRows cols b p (lineOf cols r) [pyStrip r.text] rest from by
            simp [renderRows, h1.1, h1.2, h2]]
          simp
      · rw [reconStep_new_group cols lines cur b p l r hk h1 hb hcur]
        rw [ih (blockOf cols r) (parOf cols r) (lineOf cols r)
          (lines ++ [String.intercalate " " cur, ""]) [pyStrip r.text] hrest hbr hlr
          (by simp)]
        rw [show renderRows cols b p l cur (r :: rest)
            = String.intercalate " " cur :: "" ::
                renderRows cols (blockOf cols r) (parOf cols r) (lineOf cols r)
                  [pyStrip r.text] rest from by
          simp [renderRows, h1]]
        simp

/-- The renderer computes the chunked spec rendering. -/
theorem renderRows_spec (cols : List String) :
    ∀ (rows run' : List Row) (r0 : Row) (b p l : Int),
      blockOf cols r0 = b → parOf cols r0 = p → lineOf cols r0 = l →
      (∀ x ∈ run', blockOf cols x = b ∧ parOf cols x = p) →
      (∀ x ∈ run', lineOf cols x = l) →
      renderRows cols b p l ((r0 :: run').map (fun x => pyStrip x.text)) rows
        = specLinesOf cols ((r0 :: run') ++ rows) := by
  intro rows
  induction rows with
  | nil =>
      intro run' r0 b p l hb0 hp0 hl0 hbp hln
      rw [List.append_nil]
      rw [specLinesOf_uniform cols r0 run' b p l
        (fun x hx => by
          rcases List.mem_cons.mp hx with rfl | h
          · exact ⟨hb0, hp0⟩
          · exact hbp x h)
        (fun x hx => by
          rcases List.mem_cons.mp hx with rfl | h
          · exact hl0
          · exact hln x h)]
      rfl
  | cons r rest ih =>
      intro run' r0 b p l hb0 hp0 hl0 hbp hln
      by_cases h1 : blockOf cols r = b ∧ parOf cols r = p
      · by_cases h2 : lineOf cols r = l
        · rw [show renderRows cols b p l ((r0 :: run').map (fun x => pyStrip x.text))
              (r :: rest)
              = renderRows cols b p l
                  ((r0 :: run').map (fun x => pyStrip x.text) ++ [pyStrip r.text]) rest
              from by simp [renderRows, h1.1, h1.2, h2]]
          rw [show (r0 :: run').map (fun x => pyStrip x.text) ++ [pyStrip r.text]
              = (r0 :: (run' ++ [r])).map (fun x => pyStrip x.text) from by simp]
          rw [ih (run' ++ [r]) r0 b p l hb0 hp0 hl0
            (fun x hx => by
              rcases List.mem_append.mp hx with h | h
              · exact hbp x h
              · rcases List.mem_singleton.mp h with rfl
                exact h1)
            (fun x hx => by
              rcases List.mem_append.mp hx with h | h
              · exact hln x h
              · rcases List.mem_singleton.mp h with rfl
                exact h2)]
          congr 1
          simp
        · rw [show renderRows cols b p l ((r0 :: run').map (fun x => pyStrip x.text))
              (r :: rest)
              = String.intercalate " " ((r0 :: run').map (fun x => pyStrip x.text)) ::
                  renderRows cols b p (lineOf cols r) [pyStrip r.text] rest
              from by simp [renderRows, h1.1, h1.2, h2]]
          rw [show renderRows cols b p (lineOf cols r) [pyStrip r.text] rest
              = renderRows cols b p (lineOf cols r)
                  (([r] : List Row).map (fun x => pyStrip x.text)) rest from rfl]
          rw [ih [] r b p (lineOf cols r) h1.1 h1.2 rfl (by simp) (by simp)]
          rw [specLinesOf_line_break cols r0 run' r rest b p l
            (fun x hx => by
              rcases List.mem_cons.mp hx with rfl | h
              · exact ⟨hb0, hp0⟩
              · exact hbp x h)
            (fun x hx => by
              rcases List.mem_cons.mp hx with rfl | h
              · exact hl0
              · exact hln x h)
            h1.1 h1.2 h2]
          rfl
      · rw [show renderRows cols b p l ((r0 :: run').map (fun x => pyStrip x.text))
            (r :: rest)
            = String.intercalate " " ((r0 :: run').map (fun x => pyStrip x.text)) ::
                "" :: renderRows cols (blockOf cols r) (parOf cols r) (lineOf cols r)
                  [pyStrip r.text] rest
            from by simp [renderRows, h1]]
        rw [show renderRows cols (blockOf cols r) (parOf cols r) (lineOf cols r)
            [pyStrip r.text] rest
            = renderRows cols (blockOf cols r) (parOf cols r) (lineOf cols r)
                (([r] : List Row).map (fun x => pyStrip x.text)) rest from rfl]
        rw [ih [] r (blockOf cols r) (parOf cols r) (lineOf cols r) rfl rfl rfl
          (by simp) (by simp)]
        rw [specLinesOf_group_break cols r0 run' r rest b p l
          (fun x hx => by
            rcases List.mem_cons.mp hx with rfl | h
            · exact ⟨hb0, hp0⟩
            · exact hbp x h)
          (fun x hx => by
            rcases List.mem_cons.mp hx with rfl | h
            · exact hl0
            · exact hln x h)
          (by
            intro hcon
            rw [Prod.mk.injEq] at hcon
            exact h1 hcon)]
        rfl

/-- C8: on every word table whose kept boxes carry non-negative
block/paragraph/line indices (the WordBox data model; −1 is the engine's
"no value" sentinel), the reconstructor equals the specification rendering:
boxes with confidence < 0 or empty trimmed text are skipped; maximal runs
of equal (block, paragraph) form groups separated by one blank line; within
a group, maximal runs of equal line form lines; each line is its
space-joined words; lines are joined by newlines, and the final in-progress
line is appended. -/
theorem reconstructTextFromFrame_spec (f : Frame)
    (hv : ∀ r ∈ f.rows, keepRow f.cols r = true →
        0 ≤ blockOf f.cols r ∧ 0 ≤ parOf f.cols r ∧ 0 ≤ lineOf f.cols r) :
    reconstructTextFromFrame f = specReconstruct f := by
  rw [reconstructTextFromFrame, specReconstruct]
  by_cases hcond : (f.rows.isEmpty || decide ("text" ∉ f.cols)) = true
  · rw [if_pos hcond, if_pos hcond]
  · rw [if_neg hcond, if_neg hcond]
    refine congrArg (String.intercalate "\n") ?_
    rw [foldl_reconStep_filter]
    rw [show List.intercalate [""]
        ((chunkRuns (fun r => (blockOf f.cols r, parOf f.cols r))
          (f.rows.filter (keepRow f.cols))).map (specGroupLines f.cols))
      = specLinesOf f.cols (f.rows.filter (keepRow f.cols)) from rfl]
    rcases hkept : f.rows.filter (keepRow f.cols) with _ | ⟨k, krest⟩
    · simp [specLinesOf, chunkRuns, List.intercalate]
    · have hmem : ∀ x ∈ k :: krest,
          keepRow f.cols x = true ∧ 0 ≤ blockOf f.cols x ∧
            0 ≤ parOf f.cols x ∧ 0 ≤ lineOf f.cols x := by
        intro x hx
        rw [← hkept] at hx
        have h2 := List.mem_filter.mp hx
        exact ⟨h2.2, hv x h2.1 h2.2⟩
      rw [List.foldl_cons, reconStep_init f.cols k (hmem k (by simp)).1]
      rw [foldl_renderRows f.cols krest (blockOf f.cols k) (parOf f.cols k)
        (lineOf f.cols k) [] [pyStrip k.text]
        (fun x hx => ⟨(hmem x (List.mem_cons_of_mem _ hx)).1,
          (hmem x (List.mem_cons_of_mem _ hx)).2.1,
          (hmem x (List.mem_cons_of_mem _ hx)).2.2.2⟩)
        (hmem k (by simp)).2.1 (hmem k (by simp)).2.2.2 (by simp)]
      rw [show ([pyStrip k.text] : List String)
          = ([k] : List Row).map (fun x => pyStrip x.text) from rfl]
      rw [renderRows_spec f.cols krest [] k (blockOf f.cols k) (parOf f.cols k)
        (lineOf f.cols k) rfl rfl rfl (by simp) (by simp)]
      rfl

/-- Witness for C8: the claim's two concrete tables.  One block, paragraph
and line with words "Hello"/"World" (confidences 90, 85) renders as
"Hello World"; the same words on two line numbers render as
"Hello\nWorld". -/
theorem reconstructTextFromFrame_spec_witness :
    reconstructTextFromFrame
      ⟨["text", "conf", "block_num", "par_num", "line_num"],
        [⟨"Hello", some 90, none, none, none, none, 1, 1, 1⟩,
         ⟨"World", some 85, none, none, none, none, 1, 1, 1⟩]⟩ = "Hello World" ∧
    reconstructTextFromFrame
      ⟨["text", "conf", "block_num", "par_num", "line_num"],
        [⟨"Hello", some 90, none, none, none, none, 1, 1, 1⟩,
         ⟨"World", some 85, none, none, none, none, 1, 1, 2⟩]⟩ = "Hello\nWorld" := by
  constructor
  · exact (reconstructTextFromFrame_spec
      ⟨["text", "conf", "block_num", "par_num", "line_num"],
        [⟨"Hello", some 90, none, none, none, none, 1, 1, 1⟩,
         ⟨"World", some 85, none, none, none, none, 1, 1, 1⟩]⟩
      (by decide)).trans (by decide)
  · exact (reconstructTextFromFrame_spec
      ⟨["text", "conf", "block_num", "par_num", "line_num"],
        [⟨"Hello", some 90, none, none, none, none, 1, 1, 1⟩,
         ⟨"World", some 85, none, none, none, none, 1, 1, 2⟩]⟩
      (by decide)).trans (by decide)

end KaidokuPDF
